import Mathlib

/-!
Verification of the container engine of the `algo` repository: the separate
chaining hash table (`src/hash/hashtable.h`), the hash set built on it
(`src/data_structures/hash/hashset.h`), and the array-encoded binary heap
(`src/data_structures/heap/binary_heap.h`, `heap_interface.h`).

The C code is embedded shallowly:
* a bucket array becomes a `List` of chains (each chain a `List` of
  key/value pairs, head = most recently prepended entry);
* the pluggable `HashFunction` bundle becomes a structure of Lean functions
  (`key_copy` / `key_free` manage memory only and have no observable
  effect in a value semantics, so they are dropped);
* `size_t` arithmetic is `Nat` with explicit `% 2 ^ 64` where the C value
  wraps; C `int` values are `Int` with explicit two's-complement wrapping
  where the code can overflow;
* the load-factor test `(double)size >= 0.75 * capacity` is exact rational
  arithmetic at these magnitudes and is embedded as `3 * capacity ≤ 4 * size`;
* `void *` return values that can be `NULL` become `Option`; a stored value
  that is itself a possibly `NULL` pointer is modelled by instantiating the
  value type at `Option γ`, so the C `hashtable_get` is `Option.getD … none`
  of the chain lookup;
* out-of-range dynarray reads return `NULL` (here: `Option` misses) and
  out-of-range writes are no-ops, matching `dynarray.h`.
-/

set_option maxHeartbeats 1000000

namespace Algo

open scoped List

/-- The pluggable hash-function bundle of `hashtable.h` (`HashFunction`):
a bucket-index function from key and capacity, and a key equality test. -/
structure HashFn (κ : Type) where
  hash : κ → Nat → Nat
  keyEq : κ → κ → Bool

/-- The `HashTable` struct: bucket chains, entry count, bucket count and the
bound hash-function bundle.  The C `load_factor_threshold` field is always
`0.75` and is folded into the resize test. -/
structure HashTable (κ ν : Type) where
  buckets : List (List (κ × ν))
  size : Nat
  capacity : Nat
  hf : HashFn κ

def HASHTABLE_DEFAULT_SIZE : Nat := 16
def HASHTABLE_MIN_SIZE : Nat := 8
def HASHTABLE_GROWTH_FACTOR : Nat := 2

/-- `hashtable_init`: capacity is floored at `HASHTABLE_MIN_SIZE`, the table
starts empty. -/
def hashtable_init (initial_capacity : Nat) (hf : HashFn κ) : HashTable κ ν :=
  { buckets := List.replicate
      (if initial_capacity < HASHTABLE_MIN_SIZE then HASHTABLE_MIN_SIZE
       else initial_capacity) [],
    size := 0,
    capacity := if initial_capacity < HASHTABLE_MIN_SIZE then HASHTABLE_MIN_SIZE
      else initial_capacity,
    hf := hf }

/-- Prepend entry `e` to bucket `i` (the C pattern
`entry->next = buckets[i]; buckets[i] = entry;`).  An out-of-range index
leaves the array unchanged (in C this would be an out-of-bounds write, which
the key-policy contract rules out). -/
def bucketPrepend (bs : List (List (κ × ν))) (i : Nat) (e : κ × ν) :
    List (List (κ × ν)) :=
  bs.set i (e :: bs.getD i [])

/-- The rehash loop of `hashtable_resize`: every entry of the old table is
prepended to the bucket of its new hash. -/
def rehashAll (hf : HashFn κ) (newCap : Nat) (es : List (κ × ν))
    (bs : List (List (κ × ν))) : List (List (κ × ν)) :=
  es.foldl (fun bs e => bucketPrepend bs (hf.hash e.1 newCap) e) bs

/-- `hashtable_resize`: fresh bucket array of the new capacity, every old
entry rehashed with the new capacity; `size` is recounted by the loop (one
increment per rehashed entry). -/
def hashtable_resize (t : HashTable κ ν) (new_capacity : Nat) : HashTable κ ν :=
  let entries := t.buckets.flatten
  { buckets := rehashAll t.hf new_capacity entries (List.replicate new_capacity []),
    size := entries.length,
    capacity := new_capacity,
    hf := t.hf }

/-- The chain walk of `hashtable_put`: replace the value of the first entry
whose stored key tests equal to `k` (keeping the stored key — no new key
copy), or report `none` if the chain has no such entry. -/
def updateFirstValue (eq : κ → κ → Bool) (k : κ) (v : ν) :
    List (κ × ν) → Option (List (κ × ν))
  | [] => none
  | e :: rest =>
    if eq e.1 k then some ((e.1, v) :: rest)
    else (updateFirstValue eq k v rest).map (e :: ·)

/-- The search/insert part of `hashtable_put` (after the load-factor check):
walk the target chain; update in place on a key match, otherwise prepend a
new entry and increment `size`. -/
def hashtable_put_core (t : HashTable κ ν) (k : κ) (v : ν) : HashTable κ ν :=
  match updateFirstValue t.hf.keyEq k v
      (t.buckets.getD (t.hf.hash k t.capacity) []) with
  | some chain2 =>
    { t with buckets := t.buckets.set (t.hf.hash k t.capacity) chain2 }
  | none =>
    { t with
      buckets := t.buckets.set (t.hf.hash k t.capacity)
        ((k, v) :: t.buckets.getD (t.hf.hash k t.capacity) []),
      size := t.size + 1 }

/-- `hashtable_put`: first the load-factor check
`(double)size >= load_factor_threshold * capacity` (exactly
`3 * capacity ≤ 4 * size` since the threshold is 0.75), doubling the table if
it trips, then the chain search/insert. -/
def hashtable_put (t : HashTable κ ν) (k : κ) (v : ν) : HashTable κ ν :=
  hashtable_put_core
    (if 3 * t.capacity ≤ 4 * t.size then
      hashtable_resize t (t.capacity * HASHTABLE_GROWTH_FACTOR)
     else t) k v

/-- `hashtable_get`: walk the target chain, return the value of the first
entry whose key tests equal, `none` (the C `NULL` return) otherwise. -/
def hashtable_get (t : HashTable κ ν) (k : κ) : Option ν :=
  ((t.buckets.getD (t.hf.hash k t.capacity) []).find?
      (fun e => t.hf.keyEq e.1 k)).map (·.2)

/-- The chain walk of `hashtable_remove`: splice out the first entry whose
stored key tests equal, preserving the rest of the chain in order. -/
def removeFirstEntry (eq : κ → κ → Bool) (k : κ) :
    List (κ × ν) → Option (List (κ × ν))
  | [] => none
  | e :: rest =>
    if eq e.1 k then some rest
    else (removeFirstEntry eq k rest).map (e :: ·)

/-- `hashtable_remove`: splice out the first matching entry of the target
chain and decrement `size`; return whether a removal happened. -/
def hashtable_remove (t : HashTable κ ν) (k : κ) : HashTable κ ν × Bool :=
  match removeFirstEntry t.hf.keyEq k
      (t.buckets.getD (t.hf.hash k t.capacity) []) with
  | some chain2 =>
    ({ t with buckets := t.buckets.set (t.hf.hash k t.capacity) chain2,
              size := t.size - 1 }, true)
  | none => (t, false)

/-- The C `hashtable_get` observed at the pointer level, for tables whose
values are themselves possibly-`NULL` pointers (`ν = Option γ`): a stored
`NULL` value and an absent key both come back as `NULL`. -/
def hashtable_get_ptr (t : HashTable κ (Option γ)) (k : κ) : Option γ :=
  (hashtable_get t k).getD none

/-- `hashtable_contains`: `hashtable_get(table, key) != NULL`. -/
def hashtable_contains (t : HashTable κ (Option γ)) (k : κ) : Bool :=
  (hashtable_get_ptr t k).isSome

/-- `hashtable_size`. -/
def hashtable_size (t : HashTable κ ν) : Nat := t.size

/-- A mutating operation on a table: the claims quantify over sequences of
`put` / `remove` calls after `init`. -/
inductive TableOp (κ ν : Type) where
  | put (k : κ) (v : ν)
  | remove (k : κ)

/-- Run a sequence of operations left to right. -/
def runOps (t : HashTable κ ν) : List (TableOp κ ν) → HashTable κ ν
  | [] => t
  | .put k v :: rest => runOps (hashtable_put t k v) rest
  | .remove k :: rest => runOps ((hashtable_remove t k).1) rest

/-! ### Built-in key policies -/

def UINT64_MOD : Nat := 2 ^ 64

/-- `hash_int` of `hashtable.h`: `((size_t)val * 2654435761U) % capacity`,
with the `size_t` product wrapping modulo `2 ^ 64`; a C `int` converts to
`size_t` by reduction modulo `2 ^ 64`. -/
def hash_int (v : Int) (capacity : Nat) : Nat :=
  ((v % (UINT64_MOD : Int)).toNat * 2654435761) % UINT64_MOD % capacity

/-- The `INT_HASH_FUNC` policy: multiplicative hashing, numeric equality. -/
def INT_HASH_FUNC : HashFn Int :=
  { hash := hash_int, keyEq := fun a b => a == b }

/-- `hash_string_djb2`: hash seeded at 5381, `hash = hash * 33 + byte` for
each byte (wrapping in `size_t`), reduced modulo the capacity.  A C string is
its list of (nonzero) byte values. -/
def hash_string_djb2 (s : List Nat) (capacity : Nat) : Nat :=
  (s.foldl (fun h c => (h * 33 + c) % UINT64_MOD) 5381) % capacity

/-- The `STRING_HASH_FUNC` policy: djb2 hashing, byte-wise equality. -/
def STRING_HASH_FUNC : HashFn (List Nat) :=
  { hash := hash_string_djb2, keyEq := fun a b => a == b }

/-- A minimal conforming policy on `Nat` keys, used for concrete instances. -/
def NAT_HASH_FUNC : HashFn Nat :=
  { hash := fun k c => k % c, keyEq := fun a b => a == b }

/-! ### Key-policy contract and representation invariant -/

/-- The KeyPolicy contract of the spec: the bucket index is always in
`[0, capacity)`, key equality is an equivalence relation, and equal keys
hash identically (the hash is a pure function of key content). -/
structure GoodHash (hf : HashFn κ) : Prop where
  hRange : ∀ k c, 0 < c → hf.hash k c < c
  hRefl : ∀ k, hf.keyEq k k = true
  hSymm : ∀ {a b}, hf.keyEq a b = true → hf.keyEq b a = true
  hTrans : ∀ {a b c}, hf.keyEq a b = true → hf.keyEq b c = true →
    hf.keyEq a c = true
  hCompat : ∀ {a b} (c : Nat), hf.keyEq a b = true → hf.hash a c = hf.hash b c

/-- All live entries of the table, bucket by bucket, chain order within each
bucket. -/
def entries (t : HashTable κ ν) : List (κ × ν) := t.buckets.flatten

/-- Representation invariant of `HashTable`: the bucket array has exactly
`capacity` chains, the capacity respects the floor, `size` counts the live
entries, every entry sits in the bucket of its key's hash, and keys are
unique under the policy's equality. -/
structure WF (t : HashTable κ ν) : Prop where
  blen : t.buckets.length = t.capacity
  capmin : HASHTABLE_MIN_SIZE ≤ t.capacity
  size_eq : t.size = (entries t).length
  placed : ∀ i, i < t.buckets.length →
    ∀ e ∈ t.buckets.getD i [], t.hf.hash e.1 t.capacity = i
  uniq : (entries t).Pairwise (fun e f => t.hf.keyEq e.1 f.1 = false)

theorem WF.cap_pos {t : HashTable κ ν} (hw : WF t) : 0 < t.capacity := by
  have := hw.capmin
  unfold HASHTABLE_MIN_SIZE at this
  omega

/-! ### List infrastructure -/

theorem flatten_decomp (bs : List (List β)) (i : Nat) (h : i < bs.length) :
    bs.flatten
      = (bs.take i).flatten ++ bs.getD i [] ++ (bs.drop (i + 1)).flatten := by
  have h1 : bs = bs.take i ++ bs[i] :: bs.drop (i + 1) := by
    rw [List.getElem_cons_drop, List.take_append_drop]
  have hD : bs.getD i [] = bs[i] := by
    simp [List.getD_eq_getElem?_getD, List.getElem?_eq_getElem h]
  conv_lhs => rw [h1]
  rw [List.flatten_append, List.flatten_cons, hD, List.append_assoc]

theorem flatten_set_decomp (bs : List (List β)) (i : Nat) (h : i < bs.length)
    (c : List β) :
    (bs.set i c).flatten
      = (bs.take i).flatten ++ c ++ (bs.drop (i + 1)).flatten := by
  rw [List.set_eq_take_cons_drop c h, List.flatten_append]
  simp [List.append_assoc]

theorem getD_set_self (bs : List (List β)) {i : Nat} (h : i < bs.length)
    (c : List β) : (bs.set i c).getD i [] = c := by
  simp [List.getD_eq_getElem?_getD, List.getElem?_set_self h]

theorem getD_set_ne (bs : List (List β)) {i j : Nat} (h : i ≠ j)
    (c : List β) : (bs.set i c).getD j [] = bs.getD j [] := by
  simp [List.getD_eq_getElem?_getD, List.getElem?_set_ne h]

theorem getD_replicate_nil (n i : Nat) :
    (List.replicate n ([] : List β)).getD i [] = [] := by
  simp [List.getD_eq_getElem?_getD, List.getElem?_replicate]
  split <;> rfl

theorem flatten_replicate_nil (n : Nat) :
    (List.replicate n ([] : List β)).flatten = [] := by
  induction n with
  | zero => rfl
  | succ n ih => simp [List.replicate_succ, ih]

/-- Move a middle segment to the front, up to permutation. -/
theorem perm_mid (X c Y : List β) : X ++ c ++ Y ~ c ++ (X ++ Y) := by
  calc X ++ c ++ Y ~ (c ++ X) ++ Y :=
        (@List.perm_append_comm _ X c).append_right Y
    _ ~ c ++ (X ++ Y) := by rw [List.append_assoc]

/-- Membership of an entry at a bucket index. -/
theorem mem_entries_of_mem_bucket {t : HashTable κ ν} {i : Nat}
    (hi : i < t.buckets.length) {e : κ × ν} (he : e ∈ t.buckets.getD i []) :
    e ∈ entries t := by
  unfold entries
  rw [List.mem_flatten]
  refine ⟨t.buckets.getD i [], ?_, he⟩
  rw [List.getD_eq_getElem?_getD, List.getElem?_eq_getElem hi]
  exact List.getElem_mem hi

theorem mem_bucket_of_mem_entries {t : HashTable κ ν} {e : κ × ν}
    (he : e ∈ entries t) :
    ∃ i, i < t.buckets.length ∧ e ∈ t.buckets.getD i [] := by
  unfold entries at he
  rw [List.mem_flatten] at he
  obtain ⟨b, hb, heb⟩ := he
  obtain ⟨i, hi, rfl⟩ := List.mem_iff_getElem.mp hb
  exact ⟨i, hi, by
    rw [List.getD_eq_getElem?_getD, List.getElem?_eq_getElem hi]
    exact heb⟩

/-! ### Chain-walk characterizations -/

theorem updateFirstValue_none_iff {eq : κ → κ → Bool} {k : κ} {v : ν}
    {l : List (κ × ν)} :
    updateFirstValue eq k v l = none ↔ ∀ e ∈ l, eq e.1 k = false := by
  induction l with
  | nil => simp [updateFirstValue]
  | cons e rest ih =>
    unfold updateFirstValue
    by_cases he : eq e.1 k = true
    · rw [if_pos he]
      simp [he]
    · rw [if_neg he]
      simp only [Option.map_eq_none', ih, List.mem_cons]
      constructor
      · intro h x hx
        rcases hx with rfl | hx
        · exact Bool.not_eq_true _ |>.mp he
        · exact h x hx
      · intro h x hx
        exact h x (Or.inr hx)

theorem updateFirstValue_some {eq : κ → κ → Bool} {k : κ} {v : ν}
    {l l2 : List (κ × ν)} (h : updateFirstValue eq k v l = some l2) :
    ∃ A e B, l = A ++ e :: B ∧ l2 = A ++ (e.1, v) :: B ∧
      (∀ x ∈ A, eq x.1 k = false) ∧ eq e.1 k = true := by
  induction l generalizing l2 with
  | nil => simp [updateFirstValue] at h
  | cons e rest ih =>
    unfold updateFirstValue at h
    by_cases he : eq e.1 k = true
    · rw [if_pos he] at h
      refine ⟨[], e, rest, by simp, ?_, by simp, he⟩
      simpa using h.symm
    · rw [if_neg he] at h
      rcases Option.map_eq_some'.mp h with ⟨l3, h3, rfl⟩
      obtain ⟨A, f, B, rfl, rfl, hA, hf⟩ := ih h3
      refine ⟨e :: A, f, B, by simp, by simp, ?_, hf⟩
      intro x hx
      rcases List.mem_cons.mp hx with rfl | hx
      · exact Bool.not_eq_true _ |>.mp he
      · exact hA x hx

theorem removeFirstEntry_none_iff {eq : κ → κ → Bool} {k : κ}
    {l : List (κ × ν)} :
    removeFirstEntry eq k l = none ↔ ∀ e ∈ l, eq e.1 k = false := by
  induction l with
  | nil => simp [removeFirstEntry]
  | cons e rest ih =>
    unfold removeFirstEntry
    by_cases he : eq e.1 k = true
    · rw [if_pos he]
      simp [he]
    · rw [if_neg he]
      simp only [Option.map_eq_none', ih, List.mem_cons]
      constructor
      · intro h x hx
        rcases hx with rfl | hx
        · exact Bool.not_eq_true _ |>.mp he
        · exact h x hx
      · intro h x hx
        exact h x (Or.inr hx)

theorem removeFirstEntry_some {eq : κ → κ → Bool} {k : κ}
    {l l2 : List (κ × ν)} (h : removeFirstEntry eq k l = some l2) :
    ∃ A e B, l = A ++ e :: B ∧ l2 = A ++ B ∧
      (∀ x ∈ A, eq x.1 k = false) ∧ eq e.1 k = true := by
  induction l generalizing l2 with
  | nil => simp [removeFirstEntry] at h
  | cons e rest ih =>
    unfold removeFirstEntry at h
    by_cases he : eq e.1 k = true
    · rw [if_pos he] at h
      refine ⟨[], e, rest, by simp, by simpa using h.symm, by simp, he⟩
    · rw [if_neg he] at h
      rcases Option.map_eq_some'.mp h with ⟨l3, h3, rfl⟩
      obtain ⟨A, f, B, rfl, rfl, hA, hf⟩ := ih h3
      refine ⟨e :: A, f, B, by simp, by simp, ?_, hf⟩
      intro x hx
      rcases List.mem_cons.mp hx with rfl | hx
      · exact Bool.not_eq_true _ |>.mp he
      · exact hA x hx

/-! ### Unique-match reasoning -/

theorem find?_eq_head?_filter (p : β → Bool) (l : List β) :
    l.find? p = (l.filter p).head? := by
  induction l with
  | nil => rfl
  | cons x rest ih =>
    by_cases hx : p x = true
    · rw [List.find?_cons_of_pos rest hx, List.filter_cons_of_pos hx]
      rfl
    · rw [List.find?_cons_of_neg rest (by simpa using hx),
        List.filter_cons_of_neg (by simpa using hx), ih]

theorem filter_length_le_one {p : β → Bool} {R : β → β → Prop}
    {l : List β} (h : l.Pairwise R)
    (hcomp : ∀ a b, p a = true → p b = true → R a b → False) :
    (l.filter p).length ≤ 1 := by
  have h2 : (l.filter p).Pairwise R := h.filter p
  match hf : l.filter p with
  | [] => simp
  | [x] => simp
  | x :: y :: rest =>
    exfalso
    rw [hf] at h2
    have hr := (List.pairwise_cons.mp h2).1 y (by simp)
    have hx : p x = true := by
      have : x ∈ l.filter p := by rw [hf]; simp
      exact (List.mem_filter.mp this).2
    have hy : p y = true := by
      have : y ∈ l.filter p := by rw [hf]; simp
      exact (List.mem_filter.mp this).2
    exact hcomp x y hx hy hr

theorem find?_eq_of_perm_of_le_one {p : β → Bool} {l1 l2 : List β}
    (hperm : l1 ~ l2) (hlen : (l1.filter p).length ≤ 1) :
    l1.find? p = l2.find? p := by
  rw [find?_eq_head?_filter, find?_eq_head?_filter]
  have hpf : l1.filter p ~ l2.filter p := hperm.filter p
  match hf : l1.filter p with
  | [] =>
    rw [hf] at hpf
    rw [(List.Perm.nil_eq hpf).symm]
  | [x] =>
    rw [hf] at hpf
    rw [← List.singleton_perm.mp hpf]
  | x :: y :: rest =>
    rw [hf] at hlen
    simp at hlen

/-! ### Bucket placement and lookup characterization -/

theorem keyNe_symmetric {hf : HashFn κ} (hg : GoodHash hf) :
    Symmetric (fun (e f : κ × ν) => hf.keyEq e.1 f.1 = false) := by
  intro a b h
  cases hq : hf.keyEq b.1 a.1 with
  | false => rfl
  | true =>
    rw [hg.hSymm hq] at h
    exact absurd h (by simp)

theorem bucket_no_match_of_ne {t : HashTable κ ν} (hg : GoodHash t.hf)
    (hw : WF t) {k : κ} {j : Nat} (hj : j < t.buckets.length)
    (hne : j ≠ t.hf.hash k t.capacity) :
    ∀ e ∈ t.buckets.getD j [], t.hf.keyEq e.1 k = false := by
  intro e he
  cases hq : t.hf.keyEq e.1 k with
  | false => rfl
  | true =>
    exfalso
    have h1 := hw.placed j hj e he
    have h2 := hg.hCompat t.capacity hq
    exact hne (by rw [← h1, h2])

theorem mem_flatten_take {bs : List (List β)} {i : Nat} {x : β}
    (hx : x ∈ (bs.take i).flatten) :
    ∃ j, j < i ∧ j < bs.length ∧ x ∈ bs.getD j [] := by
  rw [List.mem_flatten] at hx
  obtain ⟨b, hb, hxb⟩ := hx
  obtain ⟨j, hj, hbj⟩ := List.mem_iff_getElem.mp hb
  rw [List.length_take] at hj
  refine ⟨j, by omega, by omega, ?_⟩
  rw [List.getD_eq_getElem?_getD, List.getElem?_eq_getElem (by omega)]
  rw [List.getElem_take] at hbj
  rw [← hbj] at hxb
  exact hxb

theorem mem_flatten_drop {bs : List (List β)} {i : Nat} {x : β}
    (hx : x ∈ (bs.drop (i + 1)).flatten) :
    ∃ j, i + 1 ≤ j ∧ j < bs.length ∧ x ∈ bs.getD j [] := by
  rw [List.mem_flatten] at hx
  obtain ⟨b, hb, hxb⟩ := hx
  obtain ⟨j, hj, hbj⟩ := List.mem_iff_getElem.mp hb
  rw [List.length_drop] at hj
  refine ⟨i + 1 + j, by omega, by omega, ?_⟩
  rw [List.getD_eq_getElem?_getD, List.getElem?_eq_getElem (by omega)]
  rw [List.getElem_drop] at hbj
  rw [← hbj] at hxb
  exact hxb

/-- `hashtable_get` is the unique-match lookup over all entries: away from
the key's bucket nothing matches, so the chain walk of the one bucket and a
walk of all entries agree. -/
theorem get_eq_entries_find {t : HashTable κ ν} (hg : GoodHash t.hf)
    (hw : WF t) (k : κ) :
    hashtable_get t k
      = ((entries t).find? (fun e => t.hf.keyEq e.1 k)).map (·.2) := by
  unfold hashtable_get
  have hidx : t.hf.hash k t.capacity < t.buckets.length := by
    rw [hw.blen]
    exact hg.hRange k _ hw.cap_pos
  congr 1
  rw [show entries t
      = (t.buckets.take (t.hf.hash k t.capacity)).flatten
        ++ t.buckets.getD (t.hf.hash k t.capacity) []
        ++ (t.buckets.drop (t.hf.hash k t.capacity + 1)).flatten
    from flatten_decomp t.buckets _ hidx]
  rw [List.find?_append, List.find?_append]
  have hT : (t.buckets.take (t.hf.hash k t.capacity)).flatten.find?
      (fun e => t.hf.keyEq e.1 k) = none := by
    rw [List.find?_eq_none]
    intro x hx
    obtain ⟨j, hji, hjl, hxj⟩ := mem_flatten_take hx
    have hne : j ≠ t.hf.hash k t.capacity := by omega
    simp [bucket_no_match_of_ne hg hw hjl hne x hxj]
  have hD : (t.buckets.drop (t.hf.hash k t.capacity + 1)).flatten.find?
      (fun e => t.hf.keyEq e.1 k) = none := by
    rw [List.find?_eq_none]
    intro x hx
    obtain ⟨j, hji, hjl, hxj⟩ := mem_flatten_drop hx
    have hne : j ≠ t.hf.hash k t.capacity := by omega
    simp [bucket_no_match_of_ne hg hw hjl hne x hxj]
  rw [hT, hD]
  simp

/-- There is at most one matching entry per key in a well-formed table. -/
theorem entries_filter_le_one {t : HashTable κ ν} (hg : GoodHash t.hf)
    (hw : WF t) (k : κ) :
    ((entries t).filter (fun e => t.hf.keyEq e.1 k)).length ≤ 1 := by
  apply filter_length_le_one hw.uniq
  intro a b ha hb hr
  have h1 : t.hf.keyEq a.1 b.1 = true := hg.hTrans ha (hg.hSymm hb)
  rw [h1] at hr
  exact absurd hr (by simp)

/-- Lookup is determined by the multiset of entries (given well-formedness
on both sides and a common policy). -/
theorem get_eq_of_entries_perm {t1 t2 : HashTable κ ν}
    (hg : GoodHash t1.hf) (hw1 : WF t1) (hw2 : WF t2) (hhf : t2.hf = t1.hf)
    (hperm : entries t1 ~ entries t2) (k : κ) :
    hashtable_get t1 k = hashtable_get t2 k := by
  rw [get_eq_entries_find hg hw1, get_eq_entries_find (hhf ▸ hg) hw2]
  rw [hhf]
  rw [find?_eq_of_perm_of_le_one hperm (entries_filter_le_one hg hw1 k)]

/-! ### Rehashing -/

theorem bucketPrepend_length (bs : List (List (κ × ν))) (i : Nat)
    (e : κ × ν) : (bucketPrepend bs i e).length = bs.length := by
  unfold bucketPrepend
  simp

theorem bucketPrepend_flatten_perm {bs : List (List (κ × ν))} {i : Nat}
    (h : i < bs.length) (e : κ × ν) :
    (bucketPrepend bs i e).flatten ~ e :: bs.flatten := by
  unfold bucketPrepend
  rw [flatten_set_decomp bs i h (e :: bs.getD i []), flatten_decomp bs i h]
  calc (bs.take i).flatten ++ (e :: bs.getD i [])
        ++ (bs.drop (i + 1)).flatten
      ~ (e :: bs.getD i [])
        ++ ((bs.take i).flatten ++ (bs.drop (i + 1)).flatten) :=
        perm_mid _ _ _
    _ = e :: (bs.getD i []
        ++ ((bs.take i).flatten ++ (bs.drop (i + 1)).flatten)) := rfl
    _ ~ e :: ((bs.take i).flatten ++ bs.getD i []
        ++ (bs.drop (i + 1)).flatten) :=
        List.Perm.cons e (by
          refine (perm_mid (bs.take i).flatten (bs.getD i [])
            (bs.drop (i + 1)).flatten).symm)

theorem bucketPrepend_placed {hf : HashFn κ} {c : Nat}
    {bs : List (List (κ × ν))}
    (hplaced : ∀ j, j < bs.length → ∀ x ∈ bs.getD j [], hf.hash x.1 c = j)
    {e : κ × ν} (he : hf.hash e.1 c < bs.length) :
    ∀ j, j < (bucketPrepend bs (hf.hash e.1 c) e).length →
      ∀ x ∈ (bucketPrepend bs (hf.hash e.1 c) e).getD j [],
        hf.hash x.1 c = j := by
  intro j hj x hx
  rw [bucketPrepend_length] at hj
  unfold bucketPrepend at hx
  by_cases hji : hf.hash e.1 c = j
  · rw [← hji] at hx ⊢
    rw [getD_set_self bs he] at hx
    rcases List.mem_cons.mp hx with rfl | hx
    · rfl
    · exact hplaced _ he x hx
  · rw [getD_set_ne bs hji] at hx
    exact hplaced j hj x hx

theorem rehashAll_length (hf : HashFn κ) (c : Nat) :
    ∀ (es : List (κ × ν)) (bs : List (List (κ × ν))),
      (rehashAll hf c es bs).length = bs.length := by
  intro es
  induction es with
  | nil => intro bs; rfl
  | cons e es ih =>
    intro bs
    show (rehashAll hf c es (bucketPrepend bs (hf.hash e.1 c) e)).length = _
    rw [ih, bucketPrepend_length]

theorem rehashAll_flatten_perm (hf : HashFn κ) (c : Nat) :
    ∀ (es : List (κ × ν)) (bs : List (List (κ × ν))),
      (∀ e ∈ es, hf.hash e.1 c < bs.length) →
      (rehashAll hf c es bs).flatten ~ es ++ bs.flatten := by
  intro es
  induction es with
  | nil => intro bs _; exact List.Perm.refl _
  | cons e es ih =>
    intro bs hrange
    show (rehashAll hf c es (bucketPrepend bs (hf.hash e.1 c) e)).flatten ~ _
    have h1 := ih (bucketPrepend bs (hf.hash e.1 c) e) (by
      intro x hx
      rw [bucketPrepend_length]
      exact hrange x (List.mem_cons_of_mem e hx))
    refine h1.trans ?_
    have h2 : (bucketPrepend bs (hf.hash e.1 c) e).flatten ~ e :: bs.flatten :=
      bucketPrepend_flatten_perm (hrange e (by simp)) e
    refine (List.Perm.append_left es h2).trans ?_
    exact List.perm_middle

theorem rehashAll_placed (hf : HashFn κ) (c : Nat) :
    ∀ (es : List (κ × ν)) (bs : List (List (κ × ν))),
      (∀ j, j < bs.length → ∀ x ∈ bs.getD j [], hf.hash x.1 c = j) →
      (∀ e ∈ es, hf.hash e.1 c < bs.length) →
      ∀ j, j < (rehashAll hf c es bs).length →
        ∀ x ∈ (rehashAll hf c es bs).getD j [], hf.hash x.1 c = j := by
  intro es
  induction es with
  | nil => intro bs hplaced _; exact hplaced
  | cons e es ih =>
    intro bs hplaced hrange
    show ∀ j, j < (rehashAll hf c es (bucketPrepend bs (hf.hash e.1 c) e)).length → _
    apply ih
    · exact bucketPrepend_placed hplaced (hrange e (by simp))
    · intro x hx
      rw [bucketPrepend_length]
      exact hrange x (List.mem_cons_of_mem e hx)

/-! ### Resize -/

theorem resize_capacity (t : HashTable κ ν) (c : Nat) :
    (hashtable_resize t c).capacity = c := rfl

theorem resize_hf (t : HashTable κ ν) (c : Nat) :
    (hashtable_resize t c).hf = t.hf := rfl

theorem resize_size (t : HashTable κ ν) (c : Nat) :
    (hashtable_resize t c).size = (entries t).length := rfl

/-- C5 core: rehashing moves every entry and loses none — the multiset of
entries is preserved. -/
theorem resize_entries_perm {t : HashTable κ ν} (hg : GoodHash t.hf)
    {c : Nat} (hc : 0 < c) :
    entries (hashtable_resize t c) ~ entries t := by
  show (rehashAll t.hf c t.buckets.flatten (List.replicate c [])).flatten ~ _
  have h1 := rehashAll_flatten_perm t.hf c t.buckets.flatten
    (List.replicate c []) (by
      intro e _
      rw [List.length_replicate]
      exact hg.hRange e.1 c hc)
  refine h1.trans ?_
  rw [flatten_replicate_nil]
  simp [entries]

/-- C5 core: after a resize every entry sits in the bucket of its hash
under the new capacity. -/
theorem resize_placed {t : HashTable κ ν} (hg : GoodHash t.hf)
    {c : Nat} (hc : 0 < c) :
    ∀ j, j < (hashtable_resize t c).buckets.length →
      ∀ x ∈ (hashtable_resize t c).buckets.getD j [],
        t.hf.hash x.1 c = j := by
  show ∀ j, j < (rehashAll t.hf c t.buckets.flatten
      (List.replicate c [])).length → _
  apply rehashAll_placed
  · intro j hj x hx
    rw [getD_replicate_nil] at hx
    simp at hx
  · intro e _
    rw [List.length_replicate]
    exact hg.hRange e.1 c hc

theorem wf_resize {t : HashTable κ ν} (hg : GoodHash t.hf) (hw : WF t)
    {c : Nat} (hc : HASHTABLE_MIN_SIZE ≤ c) : WF (hashtable_resize t c) := by
  have hc0 : 0 < c := by unfold HASHTABLE_MIN_SIZE at hc; omega
  refine ⟨?_, ?_, ?_, ?_, ?_⟩
  · show (rehashAll t.hf c t.buckets.flatten (List.replicate c [])).length = c
    rw [rehashAll_length, List.length_replicate]
  · exact hc
  · show (entries t).length = (entries (hashtable_resize t c)).length
    exact ((resize_entries_perm hg hc0).length_eq).symm
  · exact resize_placed hg hc0
  · exact (List.Perm.pairwise_iff (fun h => keyNe_symmetric hg h)
      (resize_entries_perm hg hc0)).mpr hw.uniq

/-! ### Insertion -/

theorem pairwise_keyNe_iff_keys {hf : HashFn κ} (l : List (κ × ν)) :
    l.Pairwise (fun e f => hf.keyEq e.1 f.1 = false)
      ↔ (l.map (·.1)).Pairwise (fun a b => hf.keyEq a b = false) := by
  rw [List.pairwise_map]

theorem chain_pairwise {t : HashTable κ ν} (hw : WF t) {i : Nat}
    (hi : i < t.buckets.length) :
    (t.buckets.getD i []).Pairwise
      (fun e f => t.hf.keyEq e.1 f.1 = false) := by
  have h := hw.uniq
  rw [show entries t = (t.buckets.take i).flatten ++ t.buckets.getD i []
      ++ (t.buckets.drop (i + 1)).flatten from flatten_decomp t.buckets i hi]
    at h
  rw [List.pairwise_append] at h
  exact (List.pairwise_append.mp h.1).2.1

theorem put_core_update {t : HashTable κ ν} {k : κ} {v : ν}
    {chain2 : List (κ × ν)}
    (h : updateFirstValue t.hf.keyEq k v
      (t.buckets.getD (t.hf.hash k t.capacity) []) = some chain2) :
    hashtable_put_core t k v
      = { t with buckets := t.buckets.set (t.hf.hash k t.capacity) chain2 } := by
  unfold hashtable_put_core
  rw [h]

theorem put_core_insert {t : HashTable κ ν} {k : κ} {v : ν}
    (h : updateFirstValue t.hf.keyEq k v
      (t.buckets.getD (t.hf.hash k t.capacity) []) = none) :
    hashtable_put_core t k v
      = { t with
          buckets := t.buckets.set (t.hf.hash k t.capacity)
            ((k, v) :: t.buckets.getD (t.hf.hash k t.capacity) []),
          size := t.size + 1 } := by
  unfold hashtable_put_core
  rw [h]

theorem get_isSome_iff_chain_match {t : HashTable κ ν} (k : κ) :
    (hashtable_get t k).isSome = true
      ↔ ∃ e ∈ t.buckets.getD (t.hf.hash k t.capacity) [],
          t.hf.keyEq e.1 k = true := by
  unfold hashtable_get
  rw [Option.isSome_map']
  rw [List.find?_isSome]

/-- If no entry with an equal key exists anywhere near the key's bucket,
none exists in the whole table. -/
theorem no_match_entries {t : HashTable κ ν} (hg : GoodHash t.hf)
    (hw : WF t) {k : κ}
    (hchain : ∀ e ∈ t.buckets.getD (t.hf.hash k t.capacity) [],
      t.hf.keyEq e.1 k = false) :
    ∀ e ∈ entries t, t.hf.keyEq e.1 k = false := by
  intro e he
  obtain ⟨j, hj, hej⟩ := mem_bucket_of_mem_entries he
  by_cases hji : j = t.hf.hash k t.capacity
  · subst hji
    exact hchain e hej
  · exact bucket_no_match_of_ne hg hw hj hji e hej

theorem put_core_capacity (t : HashTable κ ν) (k : κ) (v : ν) :
    (hashtable_put_core t k v).capacity = t.capacity := by
  unfold hashtable_put_core
  split <;> rfl

theorem put_core_hf (t : HashTable κ ν) (k : κ) (v : ν) :
    (hashtable_put_core t k v).hf = t.hf := by
  unfold hashtable_put_core
  split <;> rfl

/-- In the update-in-place case the list of stored keys is unchanged: no
new key copy is made. -/
theorem put_core_keys_update {t : HashTable κ ν} (hg : GoodHash t.hf)
    (hw : WF t) {k : κ} {v : ν} {chain2 : List (κ × ν)}
    (h : updateFirstValue t.hf.keyEq k v
      (t.buckets.getD (t.hf.hash k t.capacity) []) = some chain2) :
    (entries (hashtable_put_core t k v)).map (·.1)
      = (entries t).map (·.1) := by
  have hidx : t.hf.hash k t.capacity < t.buckets.length := by
    rw [hw.blen]; exact hg.hRange k _ hw.cap_pos
  obtain ⟨A, e, B, hchain, hchain2, _, _⟩ := updateFirstValue_some h
  rw [put_core_update h]
  show (t.buckets.set (t.hf.hash k t.capacity) chain2).flatten.map (·.1) = _
  rw [flatten_set_decomp _ _ hidx]
  conv_rhs => rw [show entries t = (t.buckets.take (t.hf.hash k t.capacity)).flatten
      ++ t.buckets.getD (t.hf.hash k t.capacity) []
      ++ (t.buckets.drop (t.hf.hash k t.capacity + 1)).flatten
    from flatten_decomp t.buckets _ hidx]
  rw [hchain, hchain2]
  simp

theorem put_core_size_update {t : HashTable κ ν} {k : κ} {v : ν}
    {chain2 : List (κ × ν)}
    (h : updateFirstValue t.hf.keyEq k v
      (t.buckets.getD (t.hf.hash k t.capacity) []) = some chain2) :
    (hashtable_put_core t k v).size = t.size := by
  rw [put_core_update h]

/-- In the insert case the entries gain exactly the new pair. -/
theorem put_core_entries_insert {t : HashTable κ ν} (hg : GoodHash t.hf)
    (hw : WF t) {k : κ} {v : ν}
    (h : updateFirstValue t.hf.keyEq k v
      (t.buckets.getD (t.hf.hash k t.capacity) []) = none) :
    entries (hashtable_put_core t k v) ~ (k, v) :: entries t := by
  have hidx : t.hf.hash k t.capacity < t.buckets.length := by
    rw [hw.blen]; exact hg.hRange k _ hw.cap_pos
  rw [put_core_insert h]
  exact bucketPrepend_flatten_perm hidx (k, v)

theorem wf_put_core {t : HashTable κ ν} (hg : GoodHash t.hf) (hw : WF t)
    (k : κ) (v : ν) : WF (hashtable_put_core t k v) := by
  have hidx : t.hf.hash k t.capacity < t.buckets.length := by
    rw [hw.blen]; exact hg.hRange k _ hw.cap_pos
  cases h : updateFirstValue t.hf.keyEq k v
      (t.buckets.getD (t.hf.hash k t.capacity) []) with
  | some chain2 =>
    obtain ⟨A, e, B, hchain, hchain2, hA, he⟩ := updateFirstValue_some h
    have hkeys := put_core_keys_update hg hw h
    rw [put_core_update h] at hkeys ⊢
    refine ⟨by simpa using hw.blen, hw.capmin, ?_, ?_, ?_⟩
    · show t.size = _
      have h3 := congrArg List.length hkeys
      simp only [List.length_map] at h3
      rw [h3]
      exact hw.size_eq
    · -- placement: the replaced pair keeps its key, all others are old
      intro j hj x hx
      show t.hf.hash x.1 t.capacity = j
      rw [List.length_set] at hj
      by_cases hji : t.hf.hash k t.capacity = j
      · rw [← hji] at hx ⊢
        rw [getD_set_self _ hidx] at hx
        rw [hchain2] at hx
        have hx2 : x ∈ t.buckets.getD (t.hf.hash k t.capacity) [] →
            t.hf.hash x.1 t.capacity = t.hf.hash k t.capacity :=
          fun hm => hw.placed _ hidx x hm
        rcases List.mem_append.mp hx with hxa | hxc
        · exact hx2 (by rw [hchain]; exact List.mem_append_left _ hxa)
        · rcases List.mem_cons.mp hxc with rfl | hxb
          · have : e ∈ t.buckets.getD (t.hf.hash k t.capacity) [] := by
              rw [hchain]
              exact List.mem_append_right _ (List.mem_cons_self e B)
            exact hw.placed _ hidx e this
          · refine hx2 ?_
            rw [hchain]
            exact List.mem_append_right _ (List.mem_cons_of_mem e hxb)
      · rw [getD_set_ne _ hji] at hx
        exact hw.placed j hj x hx
    · -- key uniqueness: the multiset of keys is unchanged
      show (entries { t with
          buckets := t.buckets.set (t.hf.hash k t.capacity) chain2 }).Pairwise
        (fun e f => t.hf.keyEq e.1 f.1 = false)
      rw [pairwise_keyNe_iff_keys, hkeys, ← pairwise_keyNe_iff_keys]
      exact hw.uniq
  | none =>
    have hperm := put_core_entries_insert hg hw h
    have hnomatch := no_match_entries hg hw (by
      intro e he
      exact (updateFirstValue_none_iff.mp h) e he)
    rw [put_core_insert h] at hperm ⊢
    refine ⟨by simpa using hw.blen, hw.capmin, ?_, ?_, ?_⟩
    · show t.size + 1 = _
      rw [hperm.length_eq]
      simp [hw.size_eq]
    · intro j hj x hx
      show t.hf.hash x.1 t.capacity = j
      rw [List.length_set] at hj
      by_cases hji : t.hf.hash k t.capacity = j
      · rw [← hji] at hx ⊢
        rw [getD_set_self _ hidx] at hx
        rcases List.mem_cons.mp hx with rfl | hxb
        · rfl
        · exact hw.placed _ hidx x hxb
      · rw [getD_set_ne _ hji] at hx
        exact hw.placed j hj x hx
    · refine (List.Perm.pairwise_iff (fun h2 => keyNe_symmetric hg h2)
        hperm).mpr ?_
      rw [List.pairwise_cons]
      constructor
      · intro f hf
        show t.hf.keyEq k f.1 = false
        cases hq : t.hf.keyEq k f.1 with
        | false => rfl
        | true =>
          have := hnomatch f hf
          rw [hg.hSymm hq] at this
          exact absurd this (by simp)
      · exact hw.uniq

/-- Lookup after a `put` (search/insert part): the put key now maps to the
new value, all other keys are untouched. -/
theorem get_put_core {t : HashTable κ ν} (hg : GoodHash t.hf) (hw : WF t)
    (k : κ) (v : ν) (k2 : κ) :
    hashtable_get (hashtable_put_core t k v) k2
      = if t.hf.keyEq k k2 = true then some v else hashtable_get t k2 := by
  have hidx : t.hf.hash k t.capacity < t.buckets.length := by
    rw [hw.blen]; exact hg.hRange k _ hw.cap_pos
  cases h : updateFirstValue t.hf.keyEq k v
      (t.buckets.getD (t.hf.hash k t.capacity) []) with
  | some chain2 =>
    obtain ⟨A, e, B, hchain, hchain2, hA, he⟩ := updateFirstValue_some h
    rw [put_core_update h]
    show ((((t.buckets.set (t.hf.hash k t.capacity) chain2).getD
        (t.hf.hash k2 t.capacity) []).find?
        (fun x => t.hf.keyEq x.1 k2)).map (·.2)) = _
    by_cases hk : t.hf.keyEq k k2 = true
    · rw [if_pos hk]
      have hieq : t.hf.hash k2 t.capacity = t.hf.hash k t.capacity :=
        hg.hCompat _ (hg.hSymm hk)
      rw [hieq, getD_set_self _ hidx, hchain2]
      have hAfree : ∀ x ∈ A, t.hf.keyEq x.1 k2 = false := by
        intro x hx
        cases hq : t.hf.keyEq x.1 k2 with
        | false => rfl
        | true =>
          have h2 : t.hf.keyEq x.1 k = true := hg.hTrans hq (hg.hSymm hk)
          rw [hA x hx] at h2
          exact absurd h2 (by simp)
      rw [List.find?_append, List.find?_eq_none.mpr
        (by intro x hx; simp [hAfree x hx])]
      rw [List.find?_cons_of_pos B
        (show t.hf.keyEq (e.1, v).1 k2 = true from hg.hTrans he hk)]
      simp
    · rw [if_neg hk]
      by_cases hii : t.hf.hash k2 t.capacity = t.hf.hash k t.capacity
      · rw [hii, getD_set_self _ hidx, hchain2]
        show _ = (((t.buckets.getD (t.hf.hash k2 t.capacity) []).find?
          (fun x => t.hf.keyEq x.1 k2)).map (·.2))
        rw [hii, hchain]
        have hpe : t.hf.keyEq e.1 k2 = false := by
          cases hq : t.hf.keyEq e.1 k2 with
          | false => rfl
          | true =>
            have h2 : t.hf.keyEq k k2 = true :=
              hg.hTrans (hg.hSymm he) hq
            rw [h2] at hk
            exact absurd rfl hk
        rw [List.find?_append, List.find?_append]
        rw [List.find?_cons_of_neg B
          (show ¬t.hf.keyEq (e.1, v).1 k2 = true by simp [hpe])]
        rw [List.find?_cons_of_neg B
          (show ¬t.hf.keyEq e.1 k2 = true by simp [hpe])]
      · rw [getD_set_ne _ (fun hq => hii hq.symm)]
        rfl
  | none =>
    have hfree := updateFirstValue_none_iff.mp h
    rw [put_core_insert h]
    show ((((t.buckets.set (t.hf.hash k t.capacity)
        ((k, v) :: t.buckets.getD (t.hf.hash k t.capacity) [])).getD
        (t.hf.hash k2 t.capacity) []).find?
        (fun x => t.hf.keyEq x.1 k2)).map (·.2)) = _
    by_cases hk : t.hf.keyEq k k2 = true
    · rw [if_pos hk]
      have hieq : t.hf.hash k2 t.capacity = t.hf.hash k t.capacity :=
        hg.hCompat _ (hg.hSymm hk)
      rw [hieq, getD_set_self _ hidx]
      rw [List.find?_cons_of_pos (t.buckets.getD (t.hf.hash k t.capacity) [])
        (show t.hf.keyEq (k, v).1 k2 = true from hk)]
      rfl
    · rw [if_neg hk]
      by_cases hii : t.hf.hash k2 t.capacity = t.hf.hash k t.capacity
      · rw [hii, getD_set_self _ hidx]
        rw [List.find?_cons_of_neg (t.buckets.getD (t.hf.hash k t.capacity) [])
          (show ¬t.hf.keyEq (k, v).1 k2 = true by simp [hk])]
        show _ = (((t.buckets.getD (t.hf.hash k2 t.capacity) []).find?
          (fun x => t.hf.keyEq x.1 k2)).map (·.2))
        rw [hii]
      · rw [getD_set_ne _ (fun hq => hii hq.symm)]
        rfl

/-- Size after the search/insert part of `put`: unchanged when the key was
present, incremented when it was absent. -/
theorem put_core_size {t : HashTable κ ν} (k : κ) (v : ν) :
    (hashtable_put_core t k v).size
      = if (hashtable_get t k).isSome = true then t.size else t.size + 1 := by
  cases h : updateFirstValue t.hf.keyEq k v
      (t.buckets.getD (t.hf.hash k t.capacity) []) with
  | some chain2 =>
    rw [put_core_update h, if_pos ?_]
    rw [get_isSome_iff_chain_match]
    obtain ⟨A, e, B, hchain, _, _, he⟩ := updateFirstValue_some h
    exact ⟨e, by rw [hchain]; exact List.mem_append_right _ (List.mem_cons_self e B), he⟩
  | none =>
    rw [put_core_insert h, if_neg ?_]
    rw [get_isSome_iff_chain_match]
    rintro ⟨e, he, hq⟩
    rw [updateFirstValue_none_iff.mp h e he] at hq
    exact absurd hq (by simp)

/-! ### The full `hashtable_put` (load-factor check, then search/insert) -/

theorem resize_min_le {t : HashTable κ ν} (hw : WF t) :
    HASHTABLE_MIN_SIZE ≤ t.capacity * HASHTABLE_GROWTH_FACTOR := by
  have := hw.capmin
  unfold HASHTABLE_MIN_SIZE HASHTABLE_GROWTH_FACTOR at *
  omega

/-- Rehashing does not change what `get` observes. -/
theorem get_resize {t : HashTable κ ν} (hg : GoodHash t.hf) (hw : WF t)
    {c : Nat} (hc : HASHTABLE_MIN_SIZE ≤ c) (k : κ) :
    hashtable_get (hashtable_resize t c) k = hashtable_get t k := by
  have hc0 : 0 < c := by unfold HASHTABLE_MIN_SIZE at hc; omega
  exact (get_eq_of_entries_perm hg hw (wf_resize hg hw hc) (resize_hf t c)
    ((resize_entries_perm hg hc0).symm) k).symm

theorem put_hf (t : HashTable κ ν) (k : κ) (v : ν) :
    (hashtable_put t k v).hf = t.hf := by
  unfold hashtable_put
  by_cases hr : 3 * t.capacity ≤ 4 * t.size
  · rw [if_pos hr, put_core_hf, resize_hf]
  · rw [if_neg hr, put_core_hf]

/-- Capacity after a full `put`: doubled exactly when the load-factor check
tripped (which happens before the key is even looked up). -/
theorem put_capacity (t : HashTable κ ν) (k : κ) (v : ν) :
    (hashtable_put t k v).capacity
      = if 3 * t.capacity ≤ 4 * t.size then
          t.capacity * HASHTABLE_GROWTH_FACTOR else t.capacity := by
  unfold hashtable_put
  by_cases hr : 3 * t.capacity ≤ 4 * t.size
  · rw [if_pos hr, if_pos hr, put_core_capacity, resize_capacity]
  · rw [if_neg hr, if_neg hr, put_core_capacity]

theorem wf_put {t : HashTable κ ν} (hg : GoodHash t.hf) (hw : WF t)
    (k : κ) (v : ν) : WF (hashtable_put t k v) := by
  unfold hashtable_put
  by_cases hr : 3 * t.capacity ≤ 4 * t.size
  · rw [if_pos hr]
    exact wf_put_core (by rw [resize_hf]; exact hg)
      (wf_resize hg hw (resize_min_le hw)) k v
  · rw [if_neg hr]
    exact wf_put_core hg hw k v

/-- Lookup after a full `put`: the put key now maps to the new value, all
other keys are untouched. -/
theorem get_put {t : HashTable κ ν} (hg : GoodHash t.hf) (hw : WF t)
    (k : κ) (v : ν) (k2 : κ) :
    hashtable_get (hashtable_put t k v) k2
      = if t.hf.keyEq k k2 = true then some v else hashtable_get t k2 := by
  unfold hashtable_put
  by_cases hr : 3 * t.capacity ≤ 4 * t.size
  · rw [if_pos hr]
    rw [get_put_core (by rw [resize_hf]; exact hg)
      (wf_resize hg hw (resize_min_le hw)) k v k2]
    rw [get_resize hg hw (resize_min_le hw) k2]
    rfl
  · rw [if_neg hr]
    exact get_put_core hg hw k v k2

/-- Size after a full `put`: unchanged for a present key, incremented for an
absent one (resizing recounts but preserves the number of entries). -/
theorem put_size {t : HashTable κ ν} (hg : GoodHash t.hf) (hw : WF t)
    (k : κ) (v : ν) :
    (hashtable_put t k v).size
      = if (hashtable_get t k).isSome = true then t.size else t.size + 1 := by
  unfold hashtable_put
  by_cases hr : 3 * t.capacity ≤ 4 * t.size
  · rw [if_pos hr]
    rw [put_core_size]
    rw [get_resize hg hw (resize_min_le hw) k]
    rw [resize_size]
    rw [← hw.size_eq]
  · rw [if_neg hr]
    exact put_core_size k v

theorem updateFirstValue_isSome_of_present {t : HashTable κ ν} {k : κ}
    (v : ν) (hpresent : (hashtable_get t k).isSome = true) :
    ∃ chain2, updateFirstValue t.hf.keyEq k v
      (t.buckets.getD (t.hf.hash k t.capacity) []) = some chain2 := by
  obtain ⟨e, he, hq⟩ := (get_isSome_iff_chain_match k).mp hpresent
  cases h : updateFirstValue t.hf.keyEq k v
      (t.buckets.getD (t.hf.hash k t.capacity) []) with
  | some c => exact ⟨c, rfl⟩
  | none =>
    rw [updateFirstValue_none_iff.mp h e he] at hq
    cases hq

theorem put_core_keys_of_present {t : HashTable κ ν} (hg : GoodHash t.hf)
    (hw : WF t) {k : κ} (v : ν)
    (hpresent : (hashtable_get t k).isSome = true) :
    (entries (hashtable_put_core t k v)).map (·.1)
      = (entries t).map (·.1) := by
  obtain ⟨chain2, h⟩ := updateFirstValue_isSome_of_present v hpresent
  exact put_core_keys_update hg hw h

/-- A `put` of an already-present key leaves the multiset of stored keys
unchanged: the stored key object is reused, no new key enters the table. -/
theorem put_keys_of_present {t : HashTable κ ν} (hg : GoodHash t.hf)
    (hw : WF t) {k : κ} (v : ν)
    (hpresent : (hashtable_get t k).isSome = true) :
    (entries (hashtable_put t k v)).map (·.1) ~ (entries t).map (·.1) := by
  unfold hashtable_put
  by_cases hr : 3 * t.capacity ≤ 4 * t.size
  · rw [if_pos hr]
    have hwr := wf_resize hg hw (resize_min_le hw)
    have hc0 : 0 < t.capacity * HASHTABLE_GROWTH_FACTOR :=
      Nat.mul_pos hw.cap_pos (by decide)
    rw [put_core_keys_of_present (by rw [resize_hf]; exact hg) hwr v
      (by rw [get_resize hg hw (resize_min_le hw)]; exact hpresent)]
    exact (resize_entries_perm hg hc0).map (·.1)
  · rw [if_neg hr]
    rw [put_core_keys_of_present hg hw v hpresent]

/-! ### Removal -/

theorem remove_some_eq {t : HashTable κ ν} {k : κ} {chain2 : List (κ × ν)}
    (h : removeFirstEntry t.hf.keyEq k
      (t.buckets.getD (t.hf.hash k t.capacity) []) = some chain2) :
    hashtable_remove t k
      = ({ t with buckets := t.buckets.set (t.hf.hash k t.capacity) chain2,
                  size := t.size - 1 }, true) := by
  unfold hashtable_remove
  rw [h]

theorem remove_none_eq {t : HashTable κ ν} {k : κ}
    (h : removeFirstEntry t.hf.keyEq k
      (t.buckets.getD (t.hf.hash k t.capacity) []) = none) :
    hashtable_remove t k = (t, false) := by
  unfold hashtable_remove
  rw [h]

theorem get_isSome_false_of_removeFirst_none {t : HashTable κ ν} {k : κ}
    (h : removeFirstEntry t.hf.keyEq k
      (t.buckets.getD (t.hf.hash k t.capacity) []) = none) :
    (hashtable_get t k).isSome = false := by
  cases hq : (hashtable_get t k).isSome with
  | false => rfl
  | true =>
    obtain ⟨e, he, hqq⟩ := (get_isSome_iff_chain_match k).mp hq
    rw [removeFirstEntry_none_iff.mp h e he] at hqq
    cases hqq

theorem get_isSome_true_of_removeFirst_some {t : HashTable κ ν} {k : κ}
    {chain2 : List (κ × ν)}
    (h : removeFirstEntry t.hf.keyEq k
      (t.buckets.getD (t.hf.hash k t.capacity) []) = some chain2) :
    (hashtable_get t k).isSome = true := by
  obtain ⟨A, e, B, hchain, _, _, he⟩ := removeFirstEntry_some h
  exact (get_isSome_iff_chain_match k).mpr
    ⟨e, by rw [hchain]; exact List.mem_append_right _ (List.mem_cons_self e B),
      he⟩

/-- Removing a key absent from the table leaves it untouched and reports
`false`. -/
theorem remove_of_get_none {t : HashTable κ ν} {k : κ}
    (h : (hashtable_get t k).isSome = false) :
    hashtable_remove t k = (t, false) := by
  apply remove_none_eq
  cases hrm : removeFirstEntry t.hf.keyEq k
      (t.buckets.getD (t.hf.hash k t.capacity) []) with
  | none => rfl
  | some chain2 =>
    rw [get_isSome_true_of_removeFirst_some hrm] at h
    cases h

/-- The `remove` return flag reports exactly whether the key was present. -/
theorem remove_snd (t : HashTable κ ν) (k : κ) :
    (hashtable_remove t k).2 = (hashtable_get t k).isSome := by
  cases h : removeFirstEntry t.hf.keyEq k
      (t.buckets.getD (t.hf.hash k t.capacity) []) with
  | none =>
    rw [remove_none_eq h, get_isSome_false_of_removeFirst_none h]
  | some chain2 =>
    rw [remove_some_eq h, get_isSome_true_of_removeFirst_some h]

/-- Size after a `remove`: decremented exactly when the key was present. -/
theorem remove_size (t : HashTable κ ν) (k : κ) :
    (hashtable_remove t k).1.size
      = if (hashtable_get t k).isSome = true then t.size - 1 else t.size := by
  cases h : removeFirstEntry t.hf.keyEq k
      (t.buckets.getD (t.hf.hash k t.capacity) []) with
  | none =>
    rw [remove_none_eq h,
      if_neg (by rw [get_isSome_false_of_removeFirst_none h]; simp)]
  | some chain2 =>
    rw [remove_some_eq h, if_pos (get_isSome_true_of_removeFirst_some h)]

theorem remove_hf (t : HashTable κ ν) (k : κ) :
    (hashtable_remove t k).1.hf = t.hf := by
  unfold hashtable_remove
  split <;> rfl

theorem remove_capacity (t : HashTable κ ν) (k : κ) :
    (hashtable_remove t k).1.capacity = t.capacity := by
  unfold hashtable_remove
  split <;> rfl

/-- In the removal case the table loses exactly one entry, matching the key. -/
theorem remove_entries_of_some {t : HashTable κ ν} (hg : GoodHash t.hf)
    (hw : WF t) {k : κ} {chain2 : List (κ × ν)}
    (h : removeFirstEntry t.hf.keyEq k
      (t.buckets.getD (t.hf.hash k t.capacity) []) = some chain2) :
    ∃ e, t.hf.keyEq e.1 k = true ∧
      entries t
        ~ e :: (t.buckets.set (t.hf.hash k t.capacity) chain2).flatten := by
  have hidx : t.hf.hash k t.capacity < t.buckets.length := by
    rw [hw.blen]; exact hg.hRange k _ hw.cap_pos
  obtain ⟨A, e, B, hchain, hchain2, hA, he⟩ := removeFirstEntry_some h
  refine ⟨e, he, ?_⟩
  rw [flatten_set_decomp _ _ hidx, hchain2]
  rw [show entries t = (t.buckets.take (t.hf.hash k t.capacity)).flatten
      ++ t.buckets.getD (t.hf.hash k t.capacity) []
      ++ (t.buckets.drop (t.hf.hash k t.capacity + 1)).flatten
    from flatten_decomp t.buckets _ hidx, hchain]
  calc (t.buckets.take (t.hf.hash k t.capacity)).flatten ++ (A ++ e :: B)
      ++ (t.buckets.drop (t.hf.hash k t.capacity + 1)).flatten
      ~ (A ++ e :: B)
        ++ ((t.buckets.take (t.hf.hash k t.capacity)).flatten
          ++ (t.buckets.drop (t.hf.hash k t.capacity + 1)).flatten) :=
        perm_mid _ _ _
    _ ~ (e :: (A ++ B))
        ++ ((t.buckets.take (t.hf.hash k t.capacity)).flatten
          ++ (t.buckets.drop (t.hf.hash k t.capacity + 1)).flatten) :=
        List.Perm.append_right _ List.perm_middle
    _ = e :: ((A ++ B)
        ++ ((t.buckets.take (t.hf.hash k t.capacity)).flatten
          ++ (t.buckets.drop (t.hf.hash k t.capacity + 1)).flatten)) := rfl
    _ ~ e :: ((t.buckets.take (t.hf.hash k t.capacity)).flatten ++ (A ++ B)
        ++ (t.buckets.drop (t.hf.hash k t.capacity + 1)).flatten) :=
        List.Perm.cons e (perm_mid _ _ _).symm

theorem wf_remove {t : HashTable κ ν} (hg : GoodHash t.hf) (hw : WF t)
    (k : κ) : WF (hashtable_remove t k).1 := by
  have hidx : t.hf.hash k t.capacity < t.buckets.length := by
    rw [hw.blen]; exact hg.hRange k _ hw.cap_pos
  cases h : removeFirstEntry t.hf.keyEq k
      (t.buckets.getD (t.hf.hash k t.capacity) []) with
  | none =>
    rw [remove_none_eq h]
    exact hw
  | some chain2 =>
    obtain ⟨A, f, B, hchain, hchain2, hA, hf2⟩ := removeFirstEntry_some h
    obtain ⟨e, he, hperm⟩ := remove_entries_of_some hg hw h
    rw [remove_some_eq h]
    refine ⟨by simpa using hw.blen, hw.capmin, ?_, ?_, ?_⟩
    · show t.size - 1
        = ((t.buckets.set (t.hf.hash k t.capacity) chain2).flatten).length
      have hlen := hperm.length_eq
      rw [List.length_cons] at hlen
      rw [hw.size_eq]
      omega
    · intro j hj x hx
      show t.hf.hash x.1 t.capacity = j
      rw [List.length_set] at hj
      by_cases hji : t.hf.hash k t.capacity = j
      · rw [← hji] at hx ⊢
        rw [getD_set_self _ hidx, hchain2] at hx
        have hx2 : x ∈ t.buckets.getD (t.hf.hash k t.capacity) [] := by
          rw [hchain]
          rcases List.mem_append.mp hx with hxa | hxb
          · exact List.mem_append_left _ hxa
          · exact List.mem_append_right _ (List.mem_cons_of_mem f hxb)
        exact hw.placed _ hidx x hx2
      · rw [getD_set_ne _ hji] at hx
        exact hw.placed j hj x hx
    · show ((t.buckets.set (t.hf.hash k t.capacity) chain2).flatten).Pairwise
        (fun e f => t.hf.keyEq e.1 f.1 = false)
      have h2 := (List.Perm.pairwise_iff (fun hq => keyNe_symmetric hg hq)
        hperm).mp hw.uniq
      exact (List.pairwise_cons.mp h2).2

/-- Lookup after a `remove`: the removed key is gone, all other keys are
untouched. -/
theorem get_remove {t : HashTable κ ν} (hg : GoodHash t.hf) (hw : WF t)
    (k k2 : κ) :
    hashtable_get (hashtable_remove t k).1 k2
      = if t.hf.keyEq k k2 = true then none else hashtable_get t k2 := by
  have hidx : t.hf.hash k t.capacity < t.buckets.length := by
    rw [hw.blen]; exact hg.hRange k _ hw.cap_pos
  cases h : removeFirstEntry t.hf.keyEq k
      (t.buckets.getD (t.hf.hash k t.capacity) []) with
  | none =>
    have hfree := removeFirstEntry_none_iff.mp h
    rw [remove_none_eq h]
    by_cases hk : t.hf.keyEq k k2 = true
    · rw [if_pos hk]
      have hieq : t.hf.hash k2 t.capacity = t.hf.hash k t.capacity :=
        hg.hCompat _ (hg.hSymm hk)
      unfold hashtable_get
      rw [hieq]
      have hnone : (t.buckets.getD (t.hf.hash k t.capacity) []).find?
          (fun e => t.hf.keyEq e.1 k2) = none := by
        rw [List.find?_eq_none]
        intro x hx hq
        have h2 : t.hf.keyEq x.1 k = true := hg.hTrans hq (hg.hSymm hk)
        rw [hfree x hx] at h2
        cases h2
      rw [hnone]
      rfl
    · rw [if_neg hk]
  | some chain2 =>
    obtain ⟨A, e, B, hchain, hchain2, hA, he⟩ := removeFirstEntry_some h
    have hpair := chain_pairwise hw hidx
    rw [remove_some_eq h]
    show ((((t.buckets.set (t.hf.hash k t.capacity) chain2).getD
        (t.hf.hash k2 t.capacity) []).find?
        (fun x => t.hf.keyEq x.1 k2)).map (·.2)) = _
    by_cases hk : t.hf.keyEq k k2 = true
    · rw [if_pos hk]
      have hieq : t.hf.hash k2 t.capacity = t.hf.hash k t.capacity :=
        hg.hCompat _ (hg.hSymm hk)
      rw [hieq, getD_set_self _ hidx, hchain2]
      have hBfree : ∀ x ∈ B, t.hf.keyEq x.1 k2 = false := by
        intro x hx
        cases hq : t.hf.keyEq x.1 k2 with
        | false => rfl
        | true =>
          rw [hchain] at hpair
          have hEB := (List.pairwise_append.mp hpair).2.1
          have hne := (List.pairwise_cons.mp hEB).1 x hx
          have h2 : t.hf.keyEq e.1 x.1 = true :=
            hg.hTrans (hg.hTrans he hk) (hg.hSymm hq)
          rw [hne] at h2
          cases h2
      have hAfree : ∀ x ∈ A, t.hf.keyEq x.1 k2 = false := by
        intro x hx
        cases hq : t.hf.keyEq x.1 k2 with
        | false => rfl
        | true =>
          have h2 : t.hf.keyEq x.1 k = true := hg.hTrans hq (hg.hSymm hk)
          rw [hA x hx] at h2
          cases h2
      have hnone : (A ++ B).find? (fun x => t.hf.keyEq x.1 k2) = none := by
        rw [List.find?_eq_none]
        intro x hx
        rcases List.mem_append.mp hx with hx | hx
        · simp [hAfree x hx]
        · simp [hBfree x hx]
      rw [hnone]
      rfl
    · rw [if_neg hk]
      by_cases hii : t.hf.hash k2 t.capacity = t.hf.hash k t.capacity
      · rw [hii, getD_set_self _ hidx, hchain2]
        show _ = (((t.buckets.getD (t.hf.hash k2 t.capacity) []).find?
          (fun x => t.hf.keyEq x.1 k2)).map (·.2))
        rw [hii, hchain]
        have hpe : t.hf.keyEq e.1 k2 = false := by
          cases hq : t.hf.keyEq e.1 k2 with
          | false => rfl
          | true =>
            have h2 : t.hf.keyEq k k2 = true := hg.hTrans (hg.hSymm he) hq
            rw [h2] at hk
            exact absurd rfl hk
        rw [List.find?_append, List.find?_append]
        rw [List.find?_cons_of_neg B
          (show ¬t.hf.keyEq e.1 k2 = true by simp [hpe])]
      · rw [getD_set_ne _ (fun hq => hii hq.symm)]
        rfl

/-! ### Initialization and operation sequences -/

theorem init_capacity (c : Nat) (hf : HashFn κ) :
    (hashtable_init c hf : HashTable κ ν).capacity
      = if c < HASHTABLE_MIN_SIZE then HASHTABLE_MIN_SIZE else c := rfl

theorem init_hf (c : Nat) (hf : HashFn κ) :
    (hashtable_init c hf : HashTable κ ν).hf = hf := rfl

theorem init_size (c : Nat) (hf : HashFn κ) :
    (hashtable_init c hf : HashTable κ ν).size = 0 := rfl

theorem wf_init (c : Nat) (hf : HashFn κ) :
    WF (hashtable_init c hf : HashTable κ ν) := by
  unfold hashtable_init
  refine ⟨?_, ?_, ?_, ?_, ?_⟩
  · show (List.replicate _ ([] : List (κ × ν))).length = _
    rw [List.length_replicate]
  · show HASHTABLE_MIN_SIZE
      ≤ if c < HASHTABLE_MIN_SIZE then HASHTABLE_MIN_SIZE else c
    split
    · exact Nat.le_refl _
    · omega
  · show 0 = (List.replicate _ ([] : List (κ × ν))).flatten.length
    rw [flatten_replicate_nil]
    rfl
  · intro j hj x hx
    have hx2 : x ∈ (List.replicate
        (if c < HASHTABLE_MIN_SIZE then HASHTABLE_MIN_SIZE else c)
        ([] : List (κ × ν))).getD j [] := hx
    rw [getD_replicate_nil] at hx2
    simp at hx2
  · show ((List.replicate _ ([] : List (κ × ν))).flatten).Pairwise _
    rw [flatten_replicate_nil]
    exact List.Pairwise.nil

theorem get_init (c : Nat) (hf : HashFn κ) (k : κ) :
    hashtable_get (hashtable_init c hf : HashTable κ ν) k = none := by
  unfold hashtable_get hashtable_init
  rw [getD_replicate_nil]
  rfl

theorem runOps_hf : ∀ (ops : List (TableOp κ ν)) (t : HashTable κ ν),
    (runOps t ops).hf = t.hf := by
  intro ops
  induction ops with
  | nil => intro t; rfl
  | cons op rest ih =>
    intro t
    cases op with
    | put k v =>
      show (runOps (hashtable_put t k v) rest).hf = t.hf
      rw [ih, put_hf]
    | remove k =>
      show (runOps (hashtable_remove t k).1 rest).hf = t.hf
      rw [ih, remove_hf]

theorem wf_runOps : ∀ (ops : List (TableOp κ ν)) (t : HashTable κ ν),
    GoodHash t.hf → WF t → WF (runOps t ops) := by
  intro ops
  induction ops with
  | nil => intro t _ hw; exact hw
  | cons op rest ih =>
    intro t hg hw
    cases op with
    | put k v =>
      show WF (runOps (hashtable_put t k v) rest)
      exact ih _ (by rw [put_hf]; exact hg) (wf_put hg hw k v)
    | remove k =>
      show WF (runOps (hashtable_remove t k).1 rest)
      exact ih _ (by rw [remove_hf]; exact hg) (wf_remove hg hw k)

/-! ### The built-in policies satisfy the KeyPolicy contract -/

theorem goodHash_nat : GoodHash NAT_HASH_FUNC := by
  refine ⟨fun k c hc => Nat.mod_lt _ hc, fun k => by simp [NAT_HASH_FUNC],
    ?_, ?_, ?_⟩
  · intro a b h
    simp only [NAT_HASH_FUNC, beq_iff_eq] at *
    omega
  · intro a b c h1 h2
    simp only [NAT_HASH_FUNC, beq_iff_eq] at *
    omega
  · intro a b c h
    simp only [NAT_HASH_FUNC, beq_iff_eq] at h
    rw [h]

theorem goodHash_int : GoodHash INT_HASH_FUNC := by
  refine ⟨fun k c hc => Nat.mod_lt _ hc, fun k => by simp [INT_HASH_FUNC],
    ?_, ?_, ?_⟩
  · intro a b h
    simp only [INT_HASH_FUNC, beq_iff_eq] at *
    omega
  · intro a b c h1 h2
    simp only [INT_HASH_FUNC, beq_iff_eq] at *
    omega
  · intro a b c h
    simp only [INT_HASH_FUNC, beq_iff_eq] at h
    rw [h]

theorem goodHash_string : GoodHash STRING_HASH_FUNC := by
  refine ⟨fun k c hc => Nat.mod_lt _ hc,
    fun k => by simp [STRING_HASH_FUNC], ?_, ?_, ?_⟩
  · intro a b h
    simp only [STRING_HASH_FUNC, beq_iff_eq] at *
    rw [h]
  · intro a b c h1 h2
    simp only [STRING_HASH_FUNC, beq_iff_eq] at *
    rw [h1, h2]
  · intro a b c h
    simp only [STRING_HASH_FUNC, beq_iff_eq] at h
    rw [h]

/-! ### The load-factor invariant -/

/-- The amended load-factor invariant: the capacity is divisible by 4 and
`size / capacity ≤ 0.75` (as the exact inequality `4 * size ≤ 3 * capacity`).
Divisibility by 4 is what makes the bound survive a `put` that lands just
under the growth threshold. -/
def LFInv (t : HashTable κ ν) : Prop :=
  4 ∣ t.capacity ∧ 4 * t.size ≤ 3 * t.capacity

theorem lfinv_put {t : HashTable κ ν} (hg : GoodHash t.hf) (hw : WF t)
    (hl : LFInv t) (k : κ) (v : ν) : LFInv (hashtable_put t k v) := by
  obtain ⟨hd, hle⟩ := hl
  have hc8 := hw.capmin
  unfold HASHTABLE_MIN_SIZE at hc8
  have hs2 : (hashtable_put t k v).size ≤ t.size + 1 := by
    rw [put_size hg hw k v]
    split <;> omega
  have hcap := put_capacity t k v
  by_cases hr : 3 * t.capacity ≤ 4 * t.size
  · rw [if_pos hr] at hcap
    unfold HASHTABLE_GROWTH_FACTOR at hcap
    exact ⟨by rw [hcap]; omega, by rw [hcap]; omega⟩
  · rw [if_neg hr] at hcap
    exact ⟨by rw [hcap]; exact hd, by rw [hcap]; omega⟩

theorem lfinv_remove {t : HashTable κ ν} (hl : LFInv t) (k : κ) :
    LFInv (hashtable_remove t k).1 := by
  obtain ⟨hd, hle⟩ := hl
  have hcap := remove_capacity t k
  refine ⟨by rw [hcap]; exact hd, ?_⟩
  rw [hcap, remove_size t k]
  split <;> omega

theorem lfinv_runOps : ∀ (ops : List (TableOp κ ν)) (t : HashTable κ ν),
    GoodHash t.hf → WF t → LFInv t → LFInv (runOps t ops) := by
  intro ops
  induction ops with
  | nil => intro t _ _ hl; exact hl
  | cons op rest ih =>
    intro t hg hw hl
    cases op with
    | put k v =>
      show LFInv (runOps (hashtable_put t k v) rest)
      exact ih _ (by rw [put_hf]; exact hg) (wf_put hg hw k v)
        (lfinv_put hg hw hl k v)
    | remove k =>
      show LFInv (runOps (hashtable_remove t k).1 rest)
      exact ih _ (by rw [remove_hf]; exact hg) (wf_remove hg hw k)
        (lfinv_remove hl k)

/-! ### Concrete tables for the hash-table counterexamples -/

/-- A table initialized with requested capacity 9 (not floored: 9 ≥ 8) and
six distinct keys inserted: `size = 6`, `capacity = 9`. -/
def nineTable : HashTable Nat Nat :=
  runOps (hashtable_init 9 NAT_HASH_FUNC)
    [.put 0 0, .put 1 1, .put 2 2, .put 3 3, .put 4 4, .put 5 5]

/-- A table initialized with capacity 8 holding six distinct keys `0..5`
(`size = 6`, `capacity = 8`), so the next `put` sees
`3 * capacity = 24 ≤ 24 = 4 * size` and resizes — whatever its key. -/
def sixOfEightTable : HashTable Nat Nat :=
  runOps (hashtable_init 8 NAT_HASH_FUNC)
    [.put 0 1, .put 1 1, .put 2 1, .put 3 1, .put 4 1, .put 5 1]

/-! ### Hash-table claims -/

/-- C1 (counterexample): with requested initial capacity 9 the claimed bound
`size / capacity ≤ 0.75` fails: after the seventh `put` on `nineTable` the
table holds 7 entries in 9 buckets and `7 / 9 > 0.75` (equivalently
`¬(4 * 7 ≤ 3 * 9)`).  The growth check only fires when the load factor is
already at least 0.75 *before* the insertion, which for a capacity not
divisible by 4 lets the post-`put` load factor overshoot the bound. -/
theorem load_factor_counterexample :
    (hashtable_put nineTable 6 6).size = 7
    ∧ (hashtable_put nineTable 6 6).capacity = 9
    ∧ ¬(4 * (hashtable_put nineTable 6 6).size
        ≤ 3 * (hashtable_put nineTable 6 6).capacity) := by decide

/-- C1 (amended): for every table created by `init` **with a floored initial
capacity divisible by 4** and every operation sequence, immediately after
any `put` returns, `size / capacity ≤ 0.75` — stated exactly as
`4 * size ≤ 3 * capacity`.  (Doubling preserves divisibility by 4, so every
reachable capacity is a multiple of 4.)  For initial capacities that are not
multiples of 4 the bound fails; see the counterexample. -/
theorem put_load_factor {hf : HashFn κ} (hg : GoodHash hf) (c0 : Nat)
    (hc4 : 4 ∣ (if c0 < HASHTABLE_MIN_SIZE then HASHTABLE_MIN_SIZE else c0))
    (ops : List (TableOp κ ν)) (k : κ) (v : ν) :
    4 * (hashtable_put (runOps (hashtable_init c0 hf : HashTable κ ν) ops)
        k v).size
      ≤ 3 * (hashtable_put (runOps (hashtable_init c0 hf : HashTable κ ν) ops)
        k v).capacity := by
  have hg0 : GoodHash (hashtable_init c0 hf : HashTable κ ν).hf := hg
  have hinv : LFInv (hashtable_init c0 hf : HashTable κ ν) :=
    ⟨hc4, by rw [init_size]; simp⟩
  have hrun := lfinv_runOps ops _ hg0 (wf_init c0 hf) hinv
  have hwrun := wf_runOps ops _ hg0 (wf_init c0 hf)
  have hgrun : GoodHash (runOps (hashtable_init c0 hf : HashTable κ ν) ops).hf := by
    rw [runOps_hf]
    exact hg
  exact (lfinv_put hgrun hwrun hrun k v).2

theorem put_load_factor_witness :
    4 * (hashtable_put (runOps (hashtable_init 16 NAT_HASH_FUNC :
        HashTable Nat Nat) [.put 1 2]) 3 4).size
      ≤ 3 * (hashtable_put (runOps (hashtable_init 16 NAT_HASH_FUNC :
        HashTable Nat Nat) [.put 1 2]) 3 4).capacity :=
  put_load_factor goodHash_nat 16 (by decide) [.put 1 2] 3 4

/-- C2 (counterexample): re-insertion of a present key *can* grow the
capacity, because `hashtable_put` runs the load-factor check before looking
the key up.  On `sixOfEightTable` (size 6, capacity 8, key 0 present)
re-putting key 0 doubles the capacity to 16 even though the put only
replaces a value in place (size stays 6, lookup sees the new value). -/
theorem put_present_grows_counterexample :
    (hashtable_get sixOfEightTable 0).isSome = true
    ∧ sixOfEightTable.capacity = 8
    ∧ sixOfEightTable.size = 6
    ∧ (hashtable_put sixOfEightTable 0 99).capacity = 16
    ∧ (hashtable_put sixOfEightTable 0 99).size = 6
    ∧ hashtable_get (hashtable_put sixOfEightTable 0 99) 0 = some 99 := by
  decide

/-- C2 (amended): a `put` of a key already present under the policy's
equality replaces the stored value in place: afterwards `get` sees the new
value, `size` is unchanged, and the multiset of stored keys is unchanged (no
new key copy is made — the chain keeps the originally stored key object).
However the capacity still doubles whenever the load-factor check trips:
the check runs before the lookup and does not depend on the key's presence,
contrary to the claim's "never grows the capacity". -/
theorem put_present_semantics {t : HashTable κ ν} (hg : GoodHash t.hf)
    (hw : WF t) {k : κ} (v : ν)
    (hpresent : (hashtable_get t k).isSome = true) :
    hashtable_get (hashtable_put t k v) k = some v
    ∧ (hashtable_put t k v).size = t.size
    ∧ (entries (hashtable_put t k v)).map (·.1) ~ (entries t).map (·.1)
    ∧ (hashtable_put t k v).capacity
        = if 3 * t.capacity ≤ 4 * t.size then
            t.capacity * HASHTABLE_GROWTH_FACTOR else t.capacity := by
  refine ⟨?_, ?_, put_keys_of_present hg hw v hpresent, put_capacity t k v⟩
  · rw [get_put hg hw k v k, if_pos (hg.hRefl k)]
  · rw [put_size hg hw k v, if_pos hpresent]

theorem put_present_semantics_witness :
    hashtable_get (hashtable_put (runOps (hashtable_init 8 NAT_HASH_FUNC :
        HashTable Nat Nat) [.put 1 5]) 1 7) 1 = some 7
    ∧ (hashtable_put (runOps (hashtable_init 8 NAT_HASH_FUNC :
        HashTable Nat Nat) [.put 1 5]) 1 7).size
      = (runOps (hashtable_init 8 NAT_HASH_FUNC :
        HashTable Nat Nat) [.put 1 5]).size
    ∧ (entries (hashtable_put (runOps (hashtable_init 8 NAT_HASH_FUNC :
        HashTable Nat Nat) [.put 1 5]) 1 7)).map (·.1)
      ~ (entries (runOps (hashtable_init 8 NAT_HASH_FUNC :
        HashTable Nat Nat) [.put 1 5])).map (·.1)
    ∧ (hashtable_put (runOps (hashtable_init 8 NAT_HASH_FUNC :
        HashTable Nat Nat) [.put 1 5]) 1 7).capacity
      = if 3 * (runOps (hashtable_init 8 NAT_HASH_FUNC :
            HashTable Nat Nat) [.put 1 5]).capacity
          ≤ 4 * (runOps (hashtable_init 8 NAT_HASH_FUNC :
            HashTable Nat Nat) [.put 1 5]).size then
          (runOps (hashtable_init 8 NAT_HASH_FUNC :
            HashTable Nat Nat) [.put 1 5]).capacity * HASHTABLE_GROWTH_FACTOR
        else (runOps (hashtable_init 8 NAT_HASH_FUNC :
          HashTable Nat Nat) [.put 1 5]).capacity :=
  put_present_semantics
    (by rw [runOps_hf]; exact goodHash_nat)
    (wf_runOps [.put 1 5] _ goodHash_nat (wf_init 8 NAT_HASH_FUNC))
    7 (by decide)

/-! ### Spec-side observers for C3

The next three definitions transcribe the C3 sentence of the spec (not the
code): the value of the most recent equal-keyed `put` not followed by a
`remove` of an equal key, and the list of distinct live keys. -/

/-- Remove the first key testing equal to `k` (spec-side). -/
def eraseFirstKey (eq : κ → κ → Bool) (k : κ) : List κ → List κ
  | [] => []
  | k2 :: rest => if eq k2 k then rest else k2 :: eraseFirstKey eq k rest

/-- Spec-side observer: the value of the most recent `put` in `ops` whose
key tests equal to `k`, cleared again by a later `remove` of an equal key. -/
def specGet (eq : κ → κ → Bool) (ops : List (TableOp κ ν)) (k : κ) :
    Option ν :=
  ops.foldl (fun acc op =>
    match op with
    | .put k2 v => if eq k2 k then some v else acc
    | .remove k2 => if eq k2 k then none else acc) none

/-- Spec-side observer: the distinct keys (under the policy's equality)
inserted and not subsequently removed, in order of first insertion. -/
def specLiveKeys (eq : κ → κ → Bool) (ops : List (TableOp κ ν)) : List κ :=
  ops.foldl (fun l op =>
    match op with
    | .put k _ => if l.any (fun x => eq x k) then l else l ++ [k]
    | .remove k => eraseFirstKey eq k l) []

theorem eraseFirstKey_sublist (eq : κ → κ → Bool) (k : κ) :
    ∀ ks : List κ, (eraseFirstKey eq k ks).Sublist ks := by
  intro ks
  induction ks with
  | nil => exact List.Sublist.refl []
  | cons a rest ih =>
    unfold eraseFirstKey
    by_cases ha : eq a k = true
    · rw [if_pos ha]
      exact List.sublist_cons_self a rest
    · rw [if_neg ha]
      exact List.Sublist.cons₂ a ih

theorem eraseFirstKey_length (eq : κ → κ → Bool) (k : κ) :
    ∀ ks : List κ, (eraseFirstKey eq k ks).length
      = if ks.any (fun x => eq x k) then ks.length - 1 else ks.length := by
  intro ks
  induction ks with
  | nil => rfl
  | cons a rest ih =>
    unfold eraseFirstKey
    by_cases ha : eq a k = true
    · rw [if_pos ha, if_pos (by simp [ha])]
      simp
    · rw [if_neg ha]
      rw [List.length_cons, ih]
      cases hc : rest.any (fun x => eq x k) with
      | true =>
        rw [if_pos rfl, if_pos (by simp [hc])]
        have hpos : 0 < rest.length := by
          obtain ⟨x, hx, _⟩ := List.any_eq_true.mp hc
          exact List.length_pos.mpr (fun hnil => by rw [hnil] at hx; cases hx)
        simp only [List.length_cons]
        omega
      | false =>
        rw [if_neg (by simp), if_neg (by simp [ha, hc])]
        rfl

/-- Erasing `k` kills every match of a key equal to `k`, provided the list
was duplicate-free under the equality. -/
theorem eraseFirstKey_any_of_eq {hf : HashFn κ} (hg : GoodHash hf)
    {k k2 : κ} (hkk : hf.keyEq k k2 = true) :
    ∀ {ks : List κ}, ks.Pairwise (fun a b => hf.keyEq a b = false) →
    (eraseFirstKey hf.keyEq k ks).any (fun x => hf.keyEq x k2) = false := by
  intro ks
  induction ks with
  | nil => intro _; rfl
  | cons a rest ih =>
    intro hpw
    unfold eraseFirstKey
    by_cases ha : hf.keyEq a k = true
    · rw [if_pos ha]
      rw [List.any_eq_false]
      intro x hx hq
      have hxk : hf.keyEq x k = true := hg.hTrans hq (hg.hSymm hkk)
      have hax : hf.keyEq a x = true := hg.hTrans ha (hg.hSymm hxk)
      rw [(List.pairwise_cons.mp hpw).1 x hx] at hax
      cases hax
    · rw [if_neg ha]
      rw [List.any_cons]
      have ha2 : hf.keyEq a k2 = false := by
        cases hq : hf.keyEq a k2 with
        | false => rfl
        | true =>
          rw [hg.hTrans hq (hg.hSymm hkk)] at ha
          exact absurd rfl ha
      rw [ha2, ih (List.pairwise_cons.mp hpw).2]
      rfl

/-- Erasing `k` leaves matches of keys not equal to `k` alone. -/
theorem eraseFirstKey_any_of_ne {hf : HashFn κ} (hg : GoodHash hf)
    {k k2 : κ} (hkk : hf.keyEq k k2 = false) :
    ∀ ks : List κ, (eraseFirstKey hf.keyEq k ks).any (fun x => hf.keyEq x k2)
      = ks.any (fun x => hf.keyEq x k2) := by
  intro ks
  induction ks with
  | nil => rfl
  | cons a rest ih =>
    unfold eraseFirstKey
    by_cases ha : hf.keyEq a k = true
    · rw [if_pos ha]
      have ha2 : hf.keyEq a k2 = false := by
        cases hq : hf.keyEq a k2 with
        | false => rfl
        | true =>
          rw [hg.hTrans (hg.hSymm ha) hq] at hkk
          cases hkk
      rw [List.any_cons, ha2]
      rfl
    · rw [if_neg ha]
      rw [List.any_cons, List.any_cons, ih]

/-- Lookup over an operation sequence, relative to an arbitrary start
table: the fold of the C3 sentence seeded with the start table's own
lookup. -/
theorem runOps_get_aux : ∀ (ops : List (TableOp κ ν)) (t : HashTable κ ν),
    GoodHash t.hf → WF t → ∀ k,
    hashtable_get (runOps t ops) k
      = ops.foldl (fun acc op =>
          match op with
          | .put k2 v => if t.hf.keyEq k2 k then some v else acc
          | .remove k2 => if t.hf.keyEq k2 k then none else acc)
          (hashtable_get t k) := by
  intro ops
  induction ops with
  | nil => intro t _ _ k; rfl
  | cons op rest ih =>
    intro t hg hw k
    cases op with
    | put k2 v =>
      show hashtable_get (runOps (hashtable_put t k2 v) rest) k = _
      have heq := ih (hashtable_put t k2 v)
        (by rw [put_hf]; exact hg) (wf_put hg hw k2 v) k
      rw [put_hf] at heq
      rw [heq, get_put hg hw k2 v k]
      rfl
    | remove k2 =>
      show hashtable_get (runOps (hashtable_remove t k2).1 rest) k = _
      have heq := ih (hashtable_remove t k2).1
        (by rw [remove_hf]; exact hg) (wf_remove hg hw k2) k
      rw [remove_hf] at heq
      rw [heq, get_remove hg hw k2 k]
      rfl

/-- Size over an operation sequence: coupled to the spec-side live-key list
through the invariant "`get` is some exactly on keys matching a live key,
`size` is the number of live keys, live keys are duplicate-free". -/
theorem runOps_size_aux : ∀ (ops : List (TableOp κ ν)) (t : HashTable κ ν)
    (ks : List κ), GoodHash t.hf → WF t →
    (∀ k2, (hashtable_get t k2).isSome
      = ks.any (fun x => t.hf.keyEq x k2)) →
    t.size = ks.length →
    ks.Pairwise (fun a b => t.hf.keyEq a b = false) →
    (runOps t ops).size
      = (ops.foldl (fun l op =>
          match op with
          | .put k _ => if l.any (fun x => t.hf.keyEq x k) then l
                        else l ++ [k]
          | .remove k => eraseFirstKey t.hf.keyEq k l) ks).length := by
  intro ops
  induction ops with
  | nil =>
    intro t ks _ _ _ h2 _
    exact h2
  | cons op rest ih =>
    intro t ks hg hw h1 h2 h3
    cases op with
    | put k v =>
      have hg2 : GoodHash (hashtable_put t k v).hf := by
        rw [put_hf]
        exact hg
      have hw2 := wf_put hg hw k v
      cases hc : ks.any (fun x => t.hf.keyEq x k) with
      | true =>
        have h1n : ∀ k2, (hashtable_get (hashtable_put t k v) k2).isSome
            = ks.any (fun x => (hashtable_put t k v).hf.keyEq x k2) := by
          intro k2
          rw [get_put hg hw k v k2, put_hf]
          cases hkk : t.hf.keyEq k k2 with
          | true =>
            rw [if_pos rfl]
            show true = ks.any fun x => t.hf.keyEq x k2
            obtain ⟨x, hx, hxk⟩ := List.any_eq_true.mp hc
            have hxk2 : t.hf.keyEq x k2 = true := hg.hTrans hxk hkk
            exact (List.any_eq_true.mpr ⟨x, hx, hxk2⟩).symm
          | false =>
            rw [if_neg (by simp)]
            exact h1 k2
        have h2n : (hashtable_put t k v).size = ks.length := by
          rw [put_size hg hw k v, if_pos ((h1 k).trans hc), h2]
        have h3n : ks.Pairwise
            (fun a b => (hashtable_put t k v).hf.keyEq a b = false) := by
          rw [put_hf]
          exact h3
        have heq := ih (hashtable_put t k v) ks hg2 hw2 h1n h2n h3n
        rw [put_hf] at heq
        show (runOps (hashtable_put t k v) rest).size
          = (List.foldl _ (if ks.any (fun x => t.hf.keyEq x k) then ks
              else ks ++ [k]) rest).length
        rw [if_pos hc]
        exact heq
      | false =>
        have hfree : ∀ x ∈ ks, t.hf.keyEq x k = false := by
          intro x hx
          have h4 := List.any_eq_false.mp hc x hx
          cases hb : t.hf.keyEq x k with
          | false => rfl
          | true => exact absurd hb h4
        have h1n : ∀ k2, (hashtable_get (hashtable_put t k v) k2).isSome
            = (ks ++ [k]).any (fun x => (hashtable_put t k v).hf.keyEq x k2) := by
          intro k2
          rw [get_put hg hw k v k2, put_hf, List.any_append]
          cases hkk : t.hf.keyEq k k2 with
          | true =>
            rw [if_pos rfl]
            simp [hkk]
          | false =>
            rw [if_neg (by simp)]
            rw [h1 k2]
            simp [hkk]
        have h2n : (hashtable_put t k v).size = (ks ++ [k]).length := by
          rw [put_size hg hw k v, if_neg (by rw [h1 k]; simp [hc]), h2]
          simp
        have h3n : (ks ++ [k]).Pairwise
            (fun a b => (hashtable_put t k v).hf.keyEq a b = false) := by
          rw [put_hf, List.pairwise_append]
          refine ⟨h3, List.pairwise_singleton _ _, ?_⟩
          intro a ha b hb
          rw [List.mem_singleton] at hb
          subst hb
          exact hfree a ha
        have heq := ih (hashtable_put t k v) (ks ++ [k]) hg2 hw2 h1n h2n h3n
        rw [put_hf] at heq
        show (runOps (hashtable_put t k v) rest).size
          = (List.foldl _ (if ks.any (fun x => t.hf.keyEq x k) then ks
              else ks ++ [k]) rest).length
        rw [if_neg (by simp [hc])]
        exact heq
    | remove k =>
      have hg2 : GoodHash (hashtable_remove t k).1.hf := by
        rw [remove_hf]
        exact hg
      have hw2 := wf_remove hg hw k
      have h1n : ∀ k2, (hashtable_get (hashtable_remove t k).1 k2).isSome
          = (eraseFirstKey t.hf.keyEq k ks).any
              (fun x => (hashtable_remove t k).1.hf.keyEq x k2) := by
        intro k2
        rw [get_remove hg hw k k2, remove_hf]
        cases hkk : t.hf.keyEq k k2 with
        | true =>
          rw [if_pos rfl]
          show false = _
          have herase : (eraseFirstKey t.hf.keyEq k ks).any
              (fun x => t.hf.keyEq x k2) = false :=
            eraseFirstKey_any_of_eq hg hkk h3
          rw [herase]
        | false =>
          rw [if_neg (by simp)]
          rw [h1 k2]
          have herase : (eraseFirstKey t.hf.keyEq k ks).any
              (fun x => t.hf.keyEq x k2) = ks.any (fun x => t.hf.keyEq x k2) :=
            eraseFirstKey_any_of_ne hg hkk ks
          rw [herase]
      have h2n : (hashtable_remove t k).1.size
          = (eraseFirstKey t.hf.keyEq k ks).length := by
        rw [remove_size t k, eraseFirstKey_length, h1 k, h2]
      have h3n : (eraseFirstKey t.hf.keyEq k ks).Pairwise
          (fun a b => (hashtable_remove t k).1.hf.keyEq a b = false) := by
        rw [remove_hf]
        exact h3.sublist (eraseFirstKey_sublist t.hf.keyEq k ks)
      have heq := ih (hashtable_remove t k).1
        (eraseFirstKey t.hf.keyEq k ks) hg2 hw2 h1n h2n h3n
      rw [remove_hf] at heq
      show (runOps (hashtable_remove t k).1 rest).size
        = (List.foldl _ (eraseFirstKey t.hf.keyEq k ks) rest).length
      exact heq

/-- C3: starting from `init` with any requested capacity and a conforming
policy, after any sequence of `put`/`remove` operations, `get k` returns the
value of the most recent `put` whose key tests equal to `k` (none if it was
subsequently removed or never put), and `size` equals the number of
distinct keys (under the policy's equality) inserted and not subsequently
removed. -/
theorem runOps_get_size {hf : HashFn κ} (hg : GoodHash hf) (c0 : Nat)
    (ops : List (TableOp κ ν)) :
    (∀ k, hashtable_get (runOps (hashtable_init c0 hf : HashTable κ ν) ops) k
        = specGet hf.keyEq ops k)
    ∧ hashtable_size (runOps (hashtable_init c0 hf : HashTable κ ν) ops)
        = (specLiveKeys hf.keyEq ops).length := by
  constructor
  · intro k
    rw [runOps_get_aux ops _ hg (wf_init c0 hf) k]
    simp only [get_init]
    rfl
  · have h1 : ∀ k2, (hashtable_get (hashtable_init c0 hf :
        HashTable κ ν) k2).isSome
        = ([] : List κ).any
            (fun x => (hashtable_init c0 hf : HashTable κ ν).hf.keyEq x k2) := by
      intro k2
      rw [get_init]
      rfl
    have heq := runOps_size_aux ops _ [] hg (wf_init c0 hf) h1 rfl
      List.Pairwise.nil
    show (runOps (hashtable_init c0 hf : HashTable κ ν) ops).size = _
    rw [heq]
    rfl

theorem runOps_get_size_witness :
    hashtable_get (runOps (hashtable_init 8 NAT_HASH_FUNC :
        HashTable Nat Nat) [.put 1 10, .put 1 20, .put 2 5, .remove 2]) 1
      = specGet NAT_HASH_FUNC.keyEq
          [.put 1 10, .put 1 20, .put 2 5, .remove 2] 1
    ∧ hashtable_size (runOps (hashtable_init 8 NAT_HASH_FUNC :
        HashTable Nat Nat) [.put 1 10, .put 1 20, .put 2 5, .remove 2])
      = (specLiveKeys NAT_HASH_FUNC.keyEq
          ([.put 1 10, .put 1 20, .put 2 5, .remove 2] :
            List (TableOp Nat Nat))).length :=
  ⟨(runOps_get_size goodHash_nat 8
      [.put 1 10, .put 1 20, .put 2 5, .remove 2]).1 1,
   (runOps_get_size goodHash_nat 8
      [.put 1 10, .put 1 20, .put 2 5, .remove 2]).2⟩

/-- C4: `remove` on a key with no stored entry returns `false` and leaves
the table (hence `size` and all contents) untouched; on a stored key it
returns `true`, decrements `size` by exactly one, and `contains` on that key
is `false` afterwards.  Presence is chain membership, which at the `get`
interface is `(hashtable_get t k).isSome`. -/
theorem remove_semantics {γ : Type} {t : HashTable κ (Option γ)}
    (hg : GoodHash t.hf) (hw : WF t) (k : κ) :
    ((hashtable_get t k).isSome = false → hashtable_remove t k = (t, false))
    ∧ ((hashtable_get t k).isSome = true →
        (hashtable_remove t k).2 = true
        ∧ (hashtable_remove t k).1.size + 1 = t.size
        ∧ hashtable_contains (hashtable_remove t k).1 k = false) := by
  constructor
  · intro h
    exact remove_of_get_none h
  · intro h
    refine ⟨by rw [remove_snd, h], ?_, ?_⟩
    · rw [remove_size, if_pos h]
      have hpos : 0 < t.size := by
        obtain ⟨e, he, _⟩ := (get_isSome_iff_chain_match k).mp h
        have hidx : t.hf.hash k t.capacity < t.buckets.length := by
          rw [hw.blen]
          exact hg.hRange k _ hw.cap_pos
        have hmem := mem_entries_of_mem_bucket hidx he
        rw [hw.size_eq]
        exact List.length_pos.mpr (fun hnil => by rw [hnil] at hmem; cases hmem)
      omega
    · unfold hashtable_contains hashtable_get_ptr
      rw [get_remove hg hw k k, if_pos (hg.hRefl k)]
      rfl

theorem remove_semantics_witness :
    ((hashtable_get (runOps (hashtable_init 8 NAT_HASH_FUNC :
          HashTable Nat (Option Nat)) [.put 5 (some 7)]) 5).isSome = false →
        hashtable_remove (runOps (hashtable_init 8 NAT_HASH_FUNC :
          HashTable Nat (Option Nat)) [.put 5 (some 7)]) 5
          = (runOps (hashtable_init 8 NAT_HASH_FUNC :
            HashTable Nat (Option Nat)) [.put 5 (some 7)], false))
    ∧ ((hashtable_get (runOps (hashtable_init 8 NAT_HASH_FUNC :
          HashTable Nat (Option Nat)) [.put 5 (some 7)]) 5).isSome = true →
        (hashtable_remove (runOps (hashtable_init 8 NAT_HASH_FUNC :
          HashTable Nat (Option Nat)) [.put 5 (some 7)]) 5).2 = true
        ∧ (hashtable_remove (runOps (hashtable_init 8 NAT_HASH_FUNC :
            HashTable Nat (Option Nat)) [.put 5 (some 7)]) 5).1.size + 1
          = (runOps (hashtable_init 8 NAT_HASH_FUNC :
            HashTable Nat (Option Nat)) [.put 5 (some 7)]).size
        ∧ hashtable_contains (hashtable_remove (runOps (hashtable_init 8
            NAT_HASH_FUNC : HashTable Nat (Option Nat))
            [.put 5 (some 7)]) 5).1 5 = false) :=
  remove_semantics
    (by rw [runOps_hf]; exact goodHash_nat)
    (wf_runOps [.put 5 (some 7)] _ goodHash_nat (wf_init 8 NAT_HASH_FUNC)) 5

/-- C5: a resize/rehash preserves the multiset of stored (key, value)
entries exactly — no entry is lost, none is duplicated, so the recounted
`size` equals the old one — and every entry ends up in the bucket of its
key's hash recomputed with the new capacity. -/
theorem resize_preserves_entries {t : HashTable κ ν} (hg : GoodHash t.hf)
    (hw : WF t) {c : Nat} (hc : 0 < c) :
    entries (hashtable_resize t c) ~ entries t
    ∧ (hashtable_resize t c).size = t.size
    ∧ ∀ j, j < (hashtable_resize t c).buckets.length →
        ∀ x ∈ (hashtable_resize t c).buckets.getD j [],
          t.hf.hash x.1 c = j :=
  ⟨resize_entries_perm hg hc,
   by rw [resize_size, ← hw.size_eq],
   resize_placed hg hc⟩

theorem resize_preserves_entries_witness :
    entries (hashtable_resize (runOps (hashtable_init 8 NAT_HASH_FUNC :
        HashTable Nat Nat) [.put 1 10, .put 2 20]) 12)
      ~ entries (runOps (hashtable_init 8 NAT_HASH_FUNC :
        HashTable Nat Nat) [.put 1 10, .put 2 20])
    ∧ (hashtable_resize (runOps (hashtable_init 8 NAT_HASH_FUNC :
        HashTable Nat Nat) [.put 1 10, .put 2 20]) 12).size
      = (runOps (hashtable_init 8 NAT_HASH_FUNC :
        HashTable Nat Nat) [.put 1 10, .put 2 20]).size :=
  ⟨(resize_preserves_entries
      (by rw [runOps_hf]; exact goodHash_nat)
      (wf_runOps [.put 1 10, .put 2 20] _ goodHash_nat
        (wf_init 8 NAT_HASH_FUNC))
      (by decide)).1,
   (resize_preserves_entries
      (by rw [runOps_hf]; exact goodHash_nat)
      (wf_runOps [.put 1 10, .put 2 20] _ goodHash_nat
        (wf_init 8 NAT_HASH_FUNC))
      (by decide)).2.1⟩

/-- C10: after `put(key, NULL)` the entry exists in the chain but is
invisible at the pointer interface: `get` returns the same `NULL` as for a
never-inserted key and `contains` is `false` — yet the entry is real: the
internal lookup finds a stored `NULL` value, `remove` still returns `true`,
and it is counted by `size` (the put increments `size` exactly when the key
was absent, just as for any other value). -/
theorem put_null_value_semantics {γ : Type} {t : HashTable κ (Option γ)}
    (hg : GoodHash t.hf) (hw : WF t) (k : κ) :
    hashtable_get_ptr (hashtable_put t k none) k = none
    ∧ hashtable_contains (hashtable_put t k none) k = false
    ∧ hashtable_get (hashtable_put t k none) k = some none
    ∧ (hashtable_remove (hashtable_put t k none) k).2 = true
    ∧ (hashtable_put t k none).size
        = if (hashtable_get t k).isSome = true then t.size else t.size + 1 := by
  have hget : hashtable_get (hashtable_put t k none) k = some none := by
    rw [get_put hg hw k none k, if_pos (hg.hRefl k)]
  refine ⟨?_, ?_, hget, ?_, put_size hg hw k none⟩
  · unfold hashtable_get_ptr
    rw [hget]
    rfl
  · unfold hashtable_contains hashtable_get_ptr
    rw [hget]
    rfl
  · rw [remove_snd, hget]
    rfl

theorem put_null_value_semantics_witness :
    hashtable_get_ptr (hashtable_put (hashtable_init 8 NAT_HASH_FUNC :
        HashTable Nat (Option Nat)) 3 none) 3 = none
    ∧ hashtable_contains (hashtable_put (hashtable_init 8 NAT_HASH_FUNC :
        HashTable Nat (Option Nat)) 3 none) 3 = false
    ∧ hashtable_get (hashtable_put (hashtable_init 8 NAT_HASH_FUNC :
        HashTable Nat (Option Nat)) 3 none) 3 = some none
    ∧ (hashtable_remove (hashtable_put (hashtable_init 8 NAT_HASH_FUNC :
        HashTable Nat (Option Nat)) 3 none) 3).2 = true
    ∧ (hashtable_put (hashtable_init 8 NAT_HASH_FUNC :
        HashTable Nat (Option Nat)) 3 none).size
        = if (hashtable_get (hashtable_init 8 NAT_HASH_FUNC :
            HashTable Nat (Option Nat)) 3).isSome = true then
            (hashtable_init 8 NAT_HASH_FUNC :
              HashTable Nat (Option Nat)).size
          else (hashtable_init 8 NAT_HASH_FUNC :
            HashTable Nat (Option Nat)).size + 1 :=
  put_null_value_semantics goodHash_nat (wf_init 8 NAT_HASH_FUNC) 3

/-! ### Hash set (`hashset.h`) -/

/-- `HASHSET_DUMMY_VALUE`: the non-`NULL` sentinel `(void *)1` stored as the
value of every set member (values are possibly-`NULL` pointers,
`ν = Option Unit`; the sentinel is the non-`NULL` `some ()`). -/
def HASHSET_DUMMY_VALUE : Option Unit := some ()

/-- A `HashSet` is just a hash table with dummy values. -/
abbrev HashSet (κ : Type) : Type := HashTable κ (Option Unit)

/-- `hashset_init` delegates to `hashtable_init`. -/
def hashset_init (initial_capacity : Nat) (hf : HashFn κ) : HashSet κ :=
  hashtable_init initial_capacity hf

/-- `hashset_add`: probe `hashtable_contains` first, then delegate to
`hashtable_put` with the dummy value; return `true` iff the key did not
already exist. -/
def hashset_add (s : HashSet κ) (k : κ) : HashSet κ × Bool :=
  (hashtable_put s k HASHSET_DUMMY_VALUE, !(hashtable_contains s k))

/-- `hashset_remove` delegates to `hashtable_remove`. -/
def hashset_remove (s : HashSet κ) (k : κ) : HashSet κ × Bool :=
  hashtable_remove s k

/-- `hashset_contains` delegates to `hashtable_contains`. -/
def hashset_contains (s : HashSet κ) (k : κ) : Bool :=
  hashtable_contains s k

/-- `hashset_size` delegates to `hashtable_size`. -/
def hashset_size (s : HashSet κ) : Nat :=
  hashtable_size s

/-- C6: for every set state, `hashset_add` returns `true` exactly when the
key was not already a member before the call, and afterwards the key is a
member; in the concrete scenario, adding the string "x" (byte 120) twice to
a fresh set returns `true` then `false` and leaves the size at 1. -/
theorem hashset_add_semantics {s : HashSet κ} (hg : GoodHash s.hf)
    (hw : WF s) (k : κ) :
    ((hashset_add s k).2 = true ↔ hashset_contains s k = false)
    ∧ hashset_contains (hashset_add s k).1 k = true
    ∧ ((hashset_add (hashset_init 16 STRING_HASH_FUNC) [120]).2 = true
        ∧ (hashset_add (hashset_add (hashset_init 16 STRING_HASH_FUNC)
            [120]).1 [120]).2 = false
        ∧ hashset_size (hashset_add (hashset_add (hashset_init 16
            STRING_HASH_FUNC) [120]).1 [120]).1 = 1) := by
  refine ⟨?_, ?_, by decide, by decide, by decide⟩
  · show (!(hashtable_contains s k)) = true ↔ hashtable_contains s k = false
    cases hb : hashtable_contains s k <;> simp
  · show hashtable_contains (hashtable_put s k HASHSET_DUMMY_VALUE) k = true
    unfold hashtable_contains hashtable_get_ptr
    rw [get_put hg hw k HASHSET_DUMMY_VALUE k, if_pos (hg.hRefl k)]
    rfl

theorem hashset_add_semantics_witness :
    ((hashset_add (hashset_init 16 STRING_HASH_FUNC) [120]).2 = true
      ↔ hashset_contains (hashset_init 16 STRING_HASH_FUNC) [120] = false)
    ∧ hashset_contains (hashset_add (hashset_init 16 STRING_HASH_FUNC)
        [120]).1 [120] = true :=
  ⟨(hashset_add_semantics goodHash_string
      (wf_init 16 STRING_HASH_FUNC) [120]).1,
   (hashset_add_semantics goodHash_string
      (wf_init 16 STRING_HASH_FUNC) [120]).2.1⟩

/-! ### Binary heap (`binary_heap.h`)

The heap's backing `DynArray` of `void *` elements is a `List α` (root at
index 0).  Per `dynarray.h`, an out-of-range `dynarray_get` returns `NULL`
and an out-of-range `dynarray_set` is a no-op; the embeddings below fold
those bounds checks into `Option` reads (`l[i]?`) and `List.set` (which is a
no-op out of range). -/

/-- `binary_heap_swap`: exchange the elements at two indices (no-op if either
index is out of range, where the C dynarray would read `NULL`). -/
def lswap (l : List α) (i j : Nat) : List α :=
  match l[i]?, l[j]? with
  | some a, some b => (l.set i b).set j a
  | _, _ => l

/-- Read-and-compare helper: `compare(data[i], data[j]) < 0`, `false` if
either index is out of range (the C code only compares in-bounds slots). -/
def oCmpLt (cmp : α → α → Int) (l : List α) (i j : Nat) : Bool :=
  match l[i]?, l[j]? with
  | some a, some b => decide (cmp a b < 0)
  | _, _ => false

@[simp] theorem lswap_length (l : List α) (i j : Nat) :
    (lswap l i j).length = l.length := by
  unfold lswap
  cases hi : l[i]? <;> cases hj : l[j]? <;> simp

/-- First half of the target selection of `binary_heap_heapify_down`:
prefer the left child if it is in range and ranks before the current node. -/
def downTargetL (cmp : α → α → Int) (l : List α) (i : Nat) : Nat :=
  if 2 * i + 1 < l.length ∧ oCmpLt cmp l (2 * i + 1) i then 2 * i + 1 else i

/-- Full target selection of `binary_heap_heapify_down`: after the left
check, prefer the right child if it is in range and ranks before the
intermediate target. -/
def downTarget (cmp : α → α → Int) (l : List α) (i : Nat) : Nat :=
  if 2 * i + 2 < l.length ∧ oCmpLt cmp l (2 * i + 2) (downTargetL cmp l i)
  then 2 * i + 2 else downTargetL cmp l i

theorem downTargetL_cases (cmp : α → α → Int) (l : List α) (i : Nat) :
    downTargetL cmp l i = i ∨
      (downTargetL cmp l i = 2 * i + 1 ∧ 2 * i + 1 < l.length) := by
  unfold downTargetL; split <;> simp_all

theorem downTarget_ne (cmp : α → α → Int) (l : List α) (i : Nat)
    (h : downTarget cmp l i ≠ i) :
    i < downTarget cmp l i ∧ downTarget cmp l i < l.length := by
  unfold downTarget at h ⊢
  by_cases hc : 2 * i + 2 < l.length ∧
      oCmpLt cmp l (2 * i + 2) (downTargetL cmp l i) = true
  · rw [if_pos hc] at h ⊢
    exact ⟨by omega, hc.1⟩
  · rw [if_neg hc] at h ⊢
    rcases downTargetL_cases cmp l i with h1 | ⟨h1, h2⟩
    · exact absurd h1 h
    · rw [h1] at h ⊢
      exact ⟨by omega, h2⟩

/-- The loop body of `binary_heap_heapify_down`, with an explicit iteration
bound: the current index strictly increases while staying below the (length
preserving) array length, so `l.length` iterations always suffice and the
bound is never exhausted when started with `fuel = l.length`
(`heapify_down_go_frozen`). -/
def heapify_down_go (cmp : α → α → Int) : Nat → List α → Nat → List α
  | 0, l, _ => l
  | fuel + 1, l, i =>
    if downTarget cmp l i = i then l
    else heapify_down_go cmp fuel (lswap l i (downTarget cmp l i))
          (downTarget cmp l i)

/-- `binary_heap_heapify_down`: repeatedly swap the current node with the
child the comparator ranks first, until no child outranks it. -/
def binary_heap_heapify_down (cmp : α → α → Int) (l : List α) (i : Nat) :
    List α :=
  heapify_down_go cmp l.length l i

/-- The loop body of `binary_heap_heapify_up` with an explicit iteration
bound: the index strictly decreases, so `i` iterations always suffice. -/
def heapify_up_go (cmp : α → α → Int) : Nat → List α → Nat → List α
  | 0, l, _ => l
  | fuel + 1, l, i =>
    if 0 < i then
      if oCmpLt cmp l i ((i - 1) / 2) then
        heapify_up_go cmp fuel (lswap l i ((i - 1) / 2)) ((i - 1) / 2)
      else l
    else l

/-- `binary_heap_heapify_up`: while not at the root and the comparator says
the element precedes its parent, swap with the parent and continue there.
(When the budget reaches 0 the index is already 0 and the C loop would also
stop.) -/
def binary_heap_heapify_up (cmp : α → α → Int) (l : List α) (i : Nat) :
    List α :=
  heapify_up_go cmp i l i

/-- `binary_heap_push`: append at the end, sift up from the last index. -/
def binary_heap_push (cmp : α → α → Int) (l : List α) (e : α) : List α :=
  binary_heap_heapify_up cmp (l ++ [e]) l.length

/-- `binary_heap_pop`: `NULL` on empty; on one element just remove it;
otherwise capture the root, move the last element to the root slot, shrink,
and sift down from the root. -/
def binary_heap_pop (cmp : α → α → Int) (l : List α) : Option α × List α :=
  match l with
  | [] => (none, [])
  | [root] => (some root, [])
  | root :: next :: rest =>
    (some root,
     binary_heap_heapify_down cmp
       ((root :: next :: rest).dropLast.set 0
         ((root :: next :: rest).getLast (by simp))) 0)

/-- `binary_heap_peek`. -/
def binary_heap_peek (l : List α) : Option α := l[0]?

/-- `binary_heap_replace`: push on an empty heap (returning `NULL`);
otherwise overwrite the root, sift down, and return the old root. -/
def binary_heap_replace (cmp : α → α → Int) (l : List α) (e : α) :
    Option α × List α :=
  match l with
  | [] => (none, binary_heap_push cmp [] e)
  | root :: rest =>
    (some root, binary_heap_heapify_down cmp ((root :: rest).set 0 e) 0)

/-- The bottom-up loop of `binary_heap_build_from_array`: sift down at
indices `k-1, k-2, …, 0`. -/
def buildLoop (cmp : α → α → Int) (l : List α) : Nat → List α
  | 0 => l
  | k + 1 => buildLoop cmp (binary_heap_heapify_down cmp l k) k

/-- `binary_heap_build_from_array`: load all elements, then sift down from
the last parent index `(count-2)/2` back to the root (only when more than
one element). -/
def binary_heap_build_from_array (cmp : α → α → Int) (elements : List α) :
    List α :=
  if 1 < elements.length then
    buildLoop cmp elements ((elements.length - 2) / 2 + 1)
  else elements

/-- Read-and-compare helper for validation: `compare(data[i], data[j]) ≤ 0`,
`true` if either index is out of range (the C code skips such children). -/
def oCmpLe (cmp : α → α → Int) (l : List α) (i j : Nat) : Bool :=
  match l[i]?, l[j]? with
  | some a, some b => decide (cmp a b ≤ 0)
  | _, _ => true

/-- `binary_heap_is_valid`: every parent index `i < size/2` compares at most
its in-range children. -/
def binary_heap_is_valid (cmp : α → α → Int) (l : List α) : Bool :=
  (List.range (l.length / 2)).all
    (fun i => oCmpLe cmp l i (2 * i + 1) && oCmpLe cmp l i (2 * i + 2))

/-- Draining loop: pop until empty (fuel = initial size, enough for a full
drain since every pop shrinks the heap). -/
def drainAux (cmp : α → α → Int) : Nat → List α → List α
  | 0, _ => []
  | fuel + 1, l =>
    match binary_heap_pop cmp l with
    | (none, _) => []
    | (some r, l2) => r :: drainAux cmp fuel l2

/-- Drain a heap fully by repeated `binary_heap_pop`. -/
def drain (cmp : α → α → Int) (l : List α) : List α := drainAux cmp l.length l

/-- Fold a sequence of pushes (element-by-element loading of a heap). -/
def pushAll (cmp : α → α → Int) (l : List α) (es : List α) : List α :=
  es.foldl (binary_heap_push cmp) l

/-- A heap mutation: the claims quantify over interleavings of `push`, `pop`
and `replace` on a heap. -/
inductive HeapOp (α : Type) where
  | push (e : α)
  | pop
  | replace (e : α)

/-- Run a sequence of heap operations left to right. -/
def runHeapOps (cmp : α → α → Int) (l : List α) : List (HeapOp α) → List α
  | [] => l
  | .push e :: rest => runHeapOps cmp (binary_heap_push cmp l e) rest
  | .pop :: rest => runHeapOps cmp (binary_heap_pop cmp l).2 rest
  | .replace e :: rest => runHeapOps cmp (binary_heap_replace cmp l e).2 rest

/-! #### Built-in integer comparators (`heap_interface.h`)

`heap_int_compare_min` returns `ia - ib` computed in C `int` arithmetic,
which wraps on overflow (two's complement); `heap_int_compare_max` returns
`ib - ia`.  `wrap32` is that two's-complement reduction. -/

def wrap32 (z : Int) : Int := (z + 2 ^ 31) % 2 ^ 32 - 2 ^ 31

/-- `heap_int_compare_min`: `ia - ib` in wrapping C `int` arithmetic. -/
def heap_int_compare_min (a b : Int) : Int := wrap32 (a - b)

/-- `heap_int_compare_max`: `ib - ia` in wrapping C `int` arithmetic. -/
def heap_int_compare_max (a b : Int) : Int := wrap32 (b - a)

/-! #### Heap-order predicate and comparator contract -/

/-- The comparator contract of `heap_interface.h`: a three-way function where
a negative result means the first argument sits closer to the root; the sign
flips when the arguments swap, and the induced "precedes" relation
(`cmp a b ≤ 0`) is transitive, i.e. a total preorder. -/
structure IsPreorderCmp (cmp : α → α → Int) : Prop where
  flip : ∀ a b, 0 ≤ cmp a b ↔ cmp b a ≤ 0
  le_trans : ∀ a b c, cmp a b ≤ 0 → cmp b c ≤ 0 → cmp a c ≤ 0

theorem IsPreorderCmp.le_of_not_lt {cmp : α → α → Int} (hp : IsPreorderCmp cmp)
    {a b : α} (h : ¬cmp a b < 0) : cmp b a ≤ 0 :=
  (hp.flip a b).mp (by omega)

theorem IsPreorderCmp.le_of_lt {cmp : α → α → Int} (_ : IsPreorderCmp cmp)
    {a b : α} (h : cmp a b < 0) : cmp a b ≤ 0 := by omega

/-- All parent/child edges of the array-encoded tree whose parent index is
at least `k` satisfy the comparator ordering.  Out-of-range indices carry no
constraint (the `Option` reads are then `none`). -/
def EdgesOKFrom (cmp : α → α → Int) (l : List α) (k : Nat) : Prop :=
  ∀ c, 0 < c → k ≤ (c - 1) / 2 →
    ∀ a ∈ l[c]?, ∀ b ∈ l[(c - 1) / 2]?, cmp b a ≤ 0

/-- The heap-order invariant: every parent precedes both of its children per
the comparator (`parent(i) = (i-1)/2`). -/
def IsHeap (cmp : α → α → Int) (l : List α) : Prop := EdgesOKFrom cmp l 0

/-! #### Swap lemmas -/

theorem lswap_comm (l : List α) (i j : Nat) : lswap l i j = lswap l j i := by
  by_cases h : i = j
  · rw [h]
  · unfold lswap
    cases hi : l[i]? <;> cases hj : l[j]? <;> simp
    exact (List.set_comm _ _ _ (Ne.symm h)).symm

theorem cons_set_perm {xs : List α} {k : Nat} {b : α} (hk : xs[k]? = some b)
    (x : α) : b :: xs.set k x ~ x :: xs := by
  induction xs generalizing k with
  | nil => simp at hk
  | cons y t ih =>
    cases k with
    | zero =>
      simp at hk
      subst hk
      simpa [List.set] using List.Perm.swap x y t
    | succ k =>
      simp at hk
      calc b :: (y :: t).set (k + 1) x = b :: y :: t.set k x := by simp [List.set]
        _ ~ y :: b :: t.set k x := List.Perm.swap _ _ _
        _ ~ y :: (x :: t) := List.Perm.cons y (ih hk)
        _ ~ x :: y :: t := List.Perm.swap _ _ _

theorem lswap_perm (l : List α) (i j : Nat) : lswap l i j ~ l := by
  -- out-of-range swaps are no-ops, so no bounds hypotheses are needed
  by_cases hij : i = j
  · subst hij
    unfold lswap
    cases hi : l[i]? with
    | none => simp
    | some a =>
      show (l.set i a).set i a ~ l
      rw [List.getElem?_eq_some_iff] at hi
      obtain ⟨h, ha⟩ := hi
      rw [List.set_set, ← ha, List.set_eq_take_cons_drop _ h,
        List.getElem_cons_drop, List.take_append_drop]
  · -- by symmetry assume the swap decomposes as a cons on each side
    suffices H : ∀ (l : List α) (i j : Nat), i < j → lswap l i j ~ l by
      rcases Nat.lt_or_ge i j with h | h
      · exact H l i j h
      · rw [lswap_comm]
        exact H l j i (by omega)
    intro l i j hij
    unfold lswap
    cases hi : l[i]? with
    | none => simp
    | some a =>
      cases hj : l[j]? with
      | none => simp
      | some b =>
        have hil : i < l.length := by
          rw [List.getElem?_eq_some_iff] at hi; exact hi.1
        have hjl : j < l.length := by
          rw [List.getElem?_eq_some_iff] at hj; exact hj.1
        show (l.set i b).set j a ~ l
        -- decompose at index i
        rw [List.set_eq_take_cons_drop b hil]
        have hj2 : (l.drop (i + 1))[j - (i + 1)]? = some b := by
          rw [List.getElem?_drop]
          rwa [Nat.add_sub_cancel' (by omega : i + 1 ≤ j)]
        have hlen : (l.take i).length = i := List.length_take_of_le (by omega)
        have hset : (l.take i ++ b :: l.drop (i + 1)).set j a
            = l.take i ++ b :: (l.drop (i + 1)).set (j - (i + 1)) a := by
          rw [List.set_append]
          simp only [hlen]
          rw [if_neg (by omega)]
          have : j - i = (j - (i + 1)) + 1 := by omega
          simp [this, List.set]
        rw [hset]
        have hai : l[i] = a := by
          rw [List.getElem?_eq_getElem hil] at hi
          exact (Option.some_inj.mp hi)
        calc l.take i ++ b :: (l.drop (i + 1)).set (j - (i + 1)) a
            ~ l.take i ++ a :: l.drop (i + 1) :=
              List.Perm.append_left _ (cons_set_perm hj2 a)
          _ = l.take i ++ l.drop i := by
              rw [← hai, List.getElem_cons_drop]
          _ ~ l := by rw [List.take_append_drop]

theorem lswap_getElem? (l : List α) {i j : Nat} (hi : i < l.length)
    (hj : j < l.length) (c : Nat) :
    (lswap l i j)[c]? = if c = j then l[i]? else if c = i then l[j]? else l[c]? := by
  unfold lswap
  rw [List.getElem?_eq_getElem hi, List.getElem?_eq_getElem hj]
  show ((l.set i l[j]).set j l[i])[c]? = _
  by_cases hcj : c = j
  · subst hcj
    rw [List.getElem?_set_self (by simpa using hj), if_pos rfl]
  · rw [List.getElem?_set_ne (Ne.symm hcj), if_neg hcj]
    by_cases hci : c = i
    · subst hci
      rw [List.getElem?_set_self hi, if_pos rfl]
    · rw [List.getElem?_set_ne (Ne.symm hci), if_neg hci]

theorem mem_getElem?_lt {l : List α} {c : Nat} {a : α} (ha : a ∈ l[c]?) :
    c < l.length := by
  rw [Option.mem_def, List.getElem?_eq_some_iff] at ha
  exact ha.1

theorem oCmpLt_true {cmp : α → α → Int} {l : List α} {i j : Nat} {a b : α}
    (ha : l[i]? = some a) (hb : l[j]? = some b)
    (h : oCmpLt cmp l i j = true) : cmp a b < 0 := by
  unfold oCmpLt at h
  rw [ha, hb] at h
  simpa using h

theorem oCmpLt_false {cmp : α → α → Int} {l : List α} {i j : Nat} {a b : α}
    (ha : l[i]? = some a) (hb : l[j]? = some b)
    (h : oCmpLt cmp l i j = false) : ¬cmp a b < 0 := by
  unfold oCmpLt at h
  rw [ha, hb] at h
  simpa using h

theorem downTargetL_eq_i {cmp : α → α → Int} {l : List α} {i : Nat}
    (h : downTargetL cmp l i = i) :
    ¬(2 * i + 1 < l.length ∧ oCmpLt cmp l (2 * i + 1) i = true) := by
  unfold downTargetL at h
  intro hc
  rw [if_pos hc] at h
  omega

theorem downTarget_eq_main {cmp : α → α → Int} {l : List α} {i : Nat}
    (h : downTarget cmp l i = i) :
    downTargetL cmp l i = i ∧
      ¬(2 * i + 2 < l.length ∧ oCmpLt cmp l (2 * i + 2) i = true) := by
  unfold downTarget at h
  have hL : downTargetL cmp l i = i := by
    rcases downTargetL_cases cmp l i with h1 | ⟨h1, _⟩
    · exact h1
    · split at h <;> omega
  refine ⟨hL, ?_⟩
  rw [hL] at h
  intro hc
  rw [if_pos hc] at h
  omega

/-- When `downTarget` stays put, the current node precedes both of its
in-range children. -/
theorem downTarget_eq_spec {cmp : α → α → Int} (hp : IsPreorderCmp cmp)
    {l : List α} {i : Nat} (h : downTarget cmp l i = i) :
    ∀ c, (c = 2 * i + 1 ∨ c = 2 * i + 2) →
      ∀ a ∈ l[c]?, ∀ b ∈ l[i]?, cmp b a ≤ 0 := by
  obtain ⟨hL, hR⟩ := downTarget_eq_main h
  have hL2 := downTargetL_eq_i hL
  intro c hc a ha b hb
  have hclen : c < l.length := mem_getElem?_lt ha
  have ha2 : l[c]? = some a := Option.mem_def.mp ha
  have hb2 : l[i]? = some b := Option.mem_def.mp hb
  rcases hc with rfl | rfl
  · have hO : oCmpLt cmp l (2 * i + 1) i = false := by
      cases h0 : oCmpLt cmp l (2 * i + 1) i
      · rfl
      · exact absurd ⟨hclen, h0⟩ hL2
    exact hp.le_of_not_lt (oCmpLt_false ha2 hb2 hO)
  · have hO : oCmpLt cmp l (2 * i + 2) i = false := by
      cases h0 : oCmpLt cmp l (2 * i + 2) i
      · rfl
      · exact absurd ⟨hclen, h0⟩ hR
    exact hp.le_of_not_lt (oCmpLt_false ha2 hb2 hO)

/-- When `downTarget` moves, it moves to a child index. -/
theorem downTarget_ne_child {cmp : α → α → Int} {l : List α} {i : Nat}
    (h : downTarget cmp l i ≠ i) :
    downTarget cmp l i = 2 * i + 1 ∨ downTarget cmp l i = 2 * i + 2 := by
  unfold downTarget at h ⊢
  rcases downTargetL_cases cmp l i with h1 | ⟨h1, _⟩ <;> rw [h1] at h ⊢ <;>
    split <;> simp_all

/-- When `downTarget` moves, the chosen child precedes the current node. -/
theorem downTarget_ne_le_root {cmp : α → α → Int} (hp : IsPreorderCmp cmp)
    {l : List α} {i : Nat} (h : downTarget cmp l i ≠ i) :
    ∀ a ∈ l[downTarget cmp l i]?, ∀ b ∈ l[i]?, cmp a b ≤ 0 := by
  intro a ha b hb
  have ha2 : l[downTarget cmp l i]? = some a := Option.mem_def.mp ha
  have hb2 : l[i]? = some b := Option.mem_def.mp hb
  unfold downTarget at h ha2
  rcases downTargetL_cases cmp l i with h1 | ⟨h1, hlen1⟩ <;> rw [h1] at h ha2
  · -- left check failed or out of range; target must be the right child
    split at ha2 <;> rename_i hcond
    · exact hp.le_of_lt (oCmpLt_true ha2 hb2 hcond.2)
    · rw [if_neg hcond] at h
      exact absurd rfl h
  · -- left child preceded the node
    have hlt1 : cmp (l[2 * i + 1]) b < 0 := by
      unfold downTargetL at h1
      by_cases hcond : 2 * i + 1 < l.length ∧ oCmpLt cmp l (2 * i + 1) i = true
      · exact oCmpLt_true (List.getElem?_eq_getElem hlen1) hb2 hcond.2
      · rw [if_neg hcond] at h1
        omega
    split at ha2 <;> rename_i hcond
    · -- target is the right child: chain through the left child
      have h2 := oCmpLt_true ha2 (List.getElem?_eq_getElem hlen1) hcond.2
      exact hp.le_trans _ _ _ (hp.le_of_lt h2) (hp.le_of_lt hlt1)
    · -- target is the left child
      have ha3 : a = l[2 * i + 1] := by
        rw [List.getElem?_eq_getElem hlen1] at ha2
        exact (Option.some_inj.mp ha2).symm
      subst ha3
      exact hp.le_of_lt hlt1

/-- When `downTarget` moves, the chosen child also precedes the sibling
child (when the sibling is in range). -/
theorem downTarget_ne_le_sibling {cmp : α → α → Int} (hp : IsPreorderCmp cmp)
    {l : List α} {i : Nat} (h : downTarget cmp l i ≠ i) :
    ∀ c, (c = 2 * i + 1 ∨ c = 2 * i + 2) → c ≠ downTarget cmp l i →
      ∀ a ∈ l[c]?, ∀ x ∈ l[downTarget cmp l i]?, cmp x a ≤ 0 := by
  intro c hc hne a ha x hx
  have hclen : c < l.length := mem_getElem?_lt ha
  have ha2 : l[c]? = some a := Option.mem_def.mp ha
  have hx2 : l[downTarget cmp l i]? = some x := Option.mem_def.mp hx
  unfold downTarget at h hne hx2
  rcases downTargetL_cases cmp l i with h1 | ⟨h1, hlen1⟩ <;>
    rw [h1] at h hne hx2
  · -- intermediate target is the node itself; the move was to the right child
    have hcond : 2 * i + 2 < l.length ∧ oCmpLt cmp l (2 * i + 2) i = true := by
      by_cases hcond : 2 * i + 2 < l.length ∧ oCmpLt cmp l (2 * i + 2) i = true
      · exact hcond
      · rw [if_neg hcond] at h
        exact absurd rfl h
    rw [if_pos hcond] at hne hx2
    -- the sibling is the left child, and the left check failed
    have hcl : c = 2 * i + 1 := by omega
    subst hcl
    have hfail := downTargetL_eq_i h1
    have hO : oCmpLt cmp l (2 * i + 1) i = false := by
      cases h0 : oCmpLt cmp l (2 * i + 1) i
      · rfl
      · exact absurd ⟨hclen, h0⟩ hfail
    have hroot : l[i]? = some (l[i]) := List.getElem?_eq_getElem (by omega)
    have hle1 : cmp (l[i]) a ≤ 0 := hp.le_of_not_lt (oCmpLt_false ha2 hroot hO)
    have hlt2 : cmp x (l[i]) < 0 := oCmpLt_true hx2 hroot hcond.2
    exact hp.le_trans _ _ _ (hp.le_of_lt hlt2) hle1
  · -- intermediate target is the left child
    by_cases hcond : 2 * i + 2 < l.length ∧
        oCmpLt cmp l (2 * i + 2) (2 * i + 1) = true
    · -- the move was to the right child; the sibling is the left child
      rw [if_pos hcond] at hne hx2
      have hcl : c = 2 * i + 1 := by omega
      subst hcl
      exact hp.le_of_lt (oCmpLt_true hx2 ha2 hcond.2)
    · -- the move was to the left child; the sibling is the right child
      rw [if_neg hcond] at hne hx2
      have hcl : c = 2 * i + 2 := by omega
      subst hcl
      have hO : oCmpLt cmp l (2 * i + 2) (2 * i + 1) = false := by
        cases h0 : oCmpLt cmp l (2 * i + 2) (2 * i + 1)
        · rfl
        · exact absurd ⟨hclen, h0⟩ hcond
      exact hp.le_of_not_lt (oCmpLt_false ha2 hx2 hO)

theorem downTarget_eq_of_len_le {cmp : α → α → Int} {l : List α} {i : Nat}
    (h : l.length ≤ 2 * i + 1) : downTarget cmp l i = i := by
  have hL : downTargetL cmp l i = i := by
    unfold downTargetL
    rw [if_neg (fun hc => absurd hc.1 (by omega))]
  unfold downTarget
  rw [hL, if_neg (fun hc => absurd hc.1 (by omega))]

/-- When the iteration budget of `heapify_down_go` is exhausted the loop
condition is already false (no child is in range), so the fueled loop agrees
with the C `while` loop when started with budget `l.length`. -/
theorem heapify_down_go_frozen (cmp : α → α → Int) (l : List α) (i : Nat)
    (h : l.length ≤ i) : downTarget cmp l i = i :=
  downTarget_eq_of_len_le (by omega)

theorem heapify_down_go_perm (cmp : α → α → Int) :
    ∀ (fuel : Nat) (l : List α) (i : Nat), heapify_down_go cmp fuel l i ~ l := by
  intro fuel
  induction fuel with
  | zero => intro l i; exact List.Perm.refl _
  | succ fuel ih =>
    intro l i
    show (if downTarget cmp l i = i then l
      else heapify_down_go cmp fuel (lswap l i (downTarget cmp l i))
        (downTarget cmp l i)) ~ l
    by_cases hdt : downTarget cmp l i = i
    · rw [if_pos hdt]
    · rw [if_neg hdt]
      exact (ih (lswap l i (downTarget cmp l i)) (downTarget cmp l i)).trans
        (lswap_perm l i (downTarget cmp l i))

/-- Sifting down only permutes the backing array. -/
theorem heapify_down_perm (cmp : α → α → Int) (l : List α) (i : Nat) :
    binary_heap_heapify_down cmp l i ~ l :=
  heapify_down_go_perm cmp l.length l i

/-- Core correctness of `binary_heap_heapify_down`: if every edge with
parent index at least `k` holds except possibly the two edges out of `i`,
and the parent of `i` (when itself at least `k`) already precedes both
children of `i`, then after sifting down from `i` every edge with parent
index at least `k` holds. -/
theorem heapify_down_go_edges {cmp : α → α → Int} (hp : IsPreorderCmp cmp) :
    ∀ (n : Nat) (l : List α) (i k : Nat), l.length ≤ n + i → k ≤ i →
    (∀ c, 0 < c → k ≤ (c - 1) / 2 → (c - 1) / 2 ≠ i →
      ∀ a ∈ l[c]?, ∀ b ∈ l[(c - 1) / 2]?, cmp b a ≤ 0) →
    (∀ c, (c = 2 * i + 1 ∨ c = 2 * i + 2) → 0 < i → k ≤ (i - 1) / 2 →
      ∀ a ∈ l[c]?, ∀ b ∈ l[(i - 1) / 2]?, cmp b a ≤ 0) →
    EdgesOKFrom cmp (heapify_down_go cmp n l i) k := by
  intro n
  induction n with
  | zero =>
    intro l i k hn hk H Haux
    show EdgesOKFrom cmp l k
    intro c hc hkc a ha b hb
    have hcl := mem_getElem?_lt ha
    by_cases hpi : (c - 1) / 2 = i
    · omega
    · exact H c hc hkc hpi a ha b hb
  | succ n ih =>
    intro l i k hn hk H Haux
    show EdgesOKFrom cmp (if downTarget cmp l i = i then l
      else heapify_down_go cmp n (lswap l i (downTarget cmp l i))
        (downTarget cmp l i)) k
    by_cases hdt : downTarget cmp l i = i
    · rw [if_pos hdt]
      intro c hc hkc a ha b hb
      by_cases hpi : (c - 1) / 2 = i
      · have hch : c = 2 * i + 1 ∨ c = 2 * i + 2 := by omega
        rw [hpi] at hb
        exact downTarget_eq_spec hp hdt c hch a ha b hb
      · exact H c hc hkc hpi a ha b hb
    · rw [if_neg hdt]
      obtain ⟨hit, htl⟩ := downTarget_ne cmp l i hdt
      have hil : i < l.length := by omega
      have hchild := downTarget_ne_child hdt
      have hpt : (downTarget cmp l i - 1) / 2 = i := by omega
      apply ih (lswap l i (downTarget cmp l i)) (downTarget cmp l i) k
      · rw [lswap_length]; omega
      · omega
      · -- all edges with parent ≥ k hold in the swapped list except out of t
        intro c hc hkc hct a ha b hb
        rw [lswap_getElem? l hil htl c] at ha
        rw [lswap_getElem? l hil htl ((c - 1) / 2)] at hb
        rw [if_neg hct] at hb
        by_cases hcT : c = downTarget cmp l i
        · -- the edge from i into the moved-up element
          rw [if_pos hcT] at ha
          have hpi : (c - 1) / 2 = i := by omega
          rw [if_pos hpi] at hb
          exact downTarget_ne_le_root hp hdt b hb a ha
        · rw [if_neg hcT] at ha
          by_cases hci : c = i
          · -- the edge from the parent of i into the moved-down element
            rw [if_pos hci] at ha
            have h0i : 0 < i := by omega
            have hpi2 : (c - 1) / 2 = (i - 1) / 2 := by rw [hci]
            have hpne : (c - 1) / 2 ≠ i := by omega
            rw [if_neg (by omega : ¬(c - 1) / 2 = i)] at hb
            rw [hpi2] at hb hkc
            exact Haux (downTarget cmp l i) hchild h0i hkc a ha b hb
          · rw [if_neg hci] at ha
            by_cases hpi : (c - 1) / 2 = i
            · -- the sibling edge out of i
              rw [if_pos hpi] at hb
              have hch : c = 2 * i + 1 ∨ c = 2 * i + 2 := by omega
              exact downTarget_ne_le_sibling hp hdt c hch hcT a ha b hb
            · -- an edge untouched by the swap
              rw [if_neg hpi] at hb
              exact H c hc hkc hpi a ha b hb
      · -- the parent i of the new index t precedes both children of t
        intro c hcch h0t hkt a ha b hb
        rw [lswap_getElem? l hil htl c] at ha
        rw [lswap_getElem? l hil htl ((downTarget cmp l i - 1) / 2)] at hb
        rw [if_neg (by omega : ¬c = downTarget cmp l i),
          if_neg (by omega : ¬c = i)] at ha
        rw [hpt] at hb
        rw [if_neg (by omega : ¬i = downTarget cmp l i), if_pos rfl] at hb
        have hcpar : (c - 1) / 2 = downTarget cmp l i := by omega
        have := H c (by omega) (by omega : k ≤ (c - 1) / 2)
          (by omega : (c - 1) / 2 ≠ i) a ha
        rw [hcpar] at this
        exact this b hb

/-- Wrapper of `heapify_down_go_edges` at the budget used by
`binary_heap_heapify_down`. -/
theorem heapify_down_edges {cmp : α → α → Int} (hp : IsPreorderCmp cmp)
    (l : List α) (i k : Nat) (hki : k ≤ i)
    (H : ∀ c, 0 < c → k ≤ (c - 1) / 2 → (c - 1) / 2 ≠ i →
      ∀ a ∈ l[c]?, ∀ b ∈ l[(c - 1) / 2]?, cmp b a ≤ 0)
    (Haux : ∀ c, (c = 2 * i + 1 ∨ c = 2 * i + 2) → 0 < i → k ≤ (i - 1) / 2 →
      ∀ a ∈ l[c]?, ∀ b ∈ l[(i - 1) / 2]?, cmp b a ≤ 0) :
    EdgesOKFrom cmp (binary_heap_heapify_down cmp l i) k :=
  heapify_down_go_edges hp l.length l i k (by omega) hki H Haux

theorem oCmpLt_true_bounds {cmp : α → α → Int} {l : List α} {i j : Nat}
    (h : oCmpLt cmp l i j = true) : i < l.length ∧ j < l.length := by
  unfold oCmpLt at h
  cases hi : l[i]? with
  | none => rw [hi] at h; simp at h
  | some a =>
    cases hj : l[j]? with
    | none => rw [hi, hj] at h; simp at h
    | some b =>
      exact ⟨by rw [List.getElem?_eq_some_iff] at hi; exact hi.1,
        by rw [List.getElem?_eq_some_iff] at hj; exact hj.1⟩

theorem heapify_up_go_perm (cmp : α → α → Int) :
    ∀ (fuel : Nat) (l : List α) (i : Nat), heapify_up_go cmp fuel l i ~ l := by
  intro fuel
  induction fuel with
  | zero => intro l i; exact List.Perm.refl _
  | succ fuel ih =>
    intro l i
    show (if 0 < i then
        if oCmpLt cmp l i ((i - 1) / 2) then
          heapify_up_go cmp fuel (lswap l i ((i - 1) / 2)) ((i - 1) / 2)
        else l
      else l) ~ l
    by_cases h0 : 0 < i
    · rw [if_pos h0]
      by_cases hsw : oCmpLt cmp l i ((i - 1) / 2) = true
      · rw [if_pos hsw]
        exact (ih _ ((i - 1) / 2)).trans (lswap_perm l i ((i - 1) / 2))
      · rw [if_neg hsw]
    · rw [if_neg h0]

theorem heapify_up_perm (cmp : α → α → Int) (l : List α) (i : Nat) :
    binary_heap_heapify_up cmp l i ~ l :=
  heapify_up_go_perm cmp i l i

/-- Core correctness of `binary_heap_heapify_up`: if every parent/child edge
holds except possibly the edge into `i`, and the parent of `i` already
precedes both children of `i`, sifting up from `i` restores the full heap
order. -/
theorem heapify_up_go_isHeap {cmp : α → α → Int} (hp : IsPreorderCmp cmp) :
    ∀ (fuel : Nat) (l : List α) (i : Nat), i ≤ fuel →
    (∀ c, 0 < c → c ≠ i → ∀ a ∈ l[c]?, ∀ b ∈ l[(c - 1) / 2]?, cmp b a ≤ 0) →
    (∀ c, (c = 2 * i + 1 ∨ c = 2 * i + 2) → 0 < i →
      ∀ a ∈ l[c]?, ∀ b ∈ l[(i - 1) / 2]?, cmp b a ≤ 0) →
    IsHeap cmp (heapify_up_go cmp fuel l i) := by
  intro fuel
  induction fuel with
  | zero =>
    intro l i hif H Haux
    intro c hc _ a ha b hb
    exact H c hc (by omega) a ha b hb
  | succ fuel ih =>
    intro l i hif H Haux
    show IsHeap cmp (if 0 < i then
        if oCmpLt cmp l i ((i - 1) / 2) then
          heapify_up_go cmp fuel (lswap l i ((i - 1) / 2)) ((i - 1) / 2)
        else l
      else l)
    by_cases h0 : 0 < i
    · rw [if_pos h0]
      by_cases hsw : oCmpLt cmp l i ((i - 1) / 2) = true
      · rw [if_pos hsw]
        obtain ⟨hil, hpl⟩ := oCmpLt_true_bounds hsw
        have hpi : (i - 1) / 2 < i := by omega
        have hlt : cmp (l[i]) (l[(i - 1) / 2]) < 0 :=
          oCmpLt_true (List.getElem?_eq_getElem hil)
            (List.getElem?_eq_getElem hpl) hsw
        apply ih _ ((i - 1) / 2) (by omega)
        · -- every edge except the one into the parent position
          intro c hc hcp a ha b hb
          rw [lswap_getElem? l hil hpl c] at ha
          rw [lswap_getElem? l hil hpl ((c - 1) / 2)] at hb
          by_cases hci : c = i
          · -- the swapped edge itself
            have hcpar : (c - 1) / 2 = (i - 1) / 2 := by rw [hci]
            rw [if_neg (by omega : ¬c = (i - 1) / 2), if_pos hci] at ha
            rw [hcpar, if_pos rfl] at hb
            have ha3 : a = l[(i - 1) / 2] := by
              rw [List.getElem?_eq_getElem hpl] at ha
              exact (Option.some_inj.mp (Option.mem_def.mp ha)).symm
            have hb3 : b = l[i] := by
              rw [List.getElem?_eq_getElem hil] at hb
              exact (Option.some_inj.mp (Option.mem_def.mp hb)).symm
            subst ha3; subst hb3
            exact hp.le_of_lt hlt
          · rw [if_neg hci] at ha
            by_cases hcpp : (c - 1) / 2 = i
            · -- a child edge of i
              have hch : c = 2 * i + 1 ∨ c = 2 * i + 2 := by omega
              have hcne : c ≠ (i - 1) / 2 := by omega
              rw [if_neg hcne] at ha
              rw [hcpp, if_neg (by omega : ¬i = (i - 1) / 2), if_pos rfl] at hb
              exact Haux c hch h0 a ha b hb
            · by_cases hcs : (c - 1) / 2 = (i - 1) / 2
              · -- a sibling edge of i under the parent
                rw [if_neg (by omega : ¬c = (i - 1) / 2)] at ha
                rw [hcs, if_pos rfl] at hb
                have hb3 : b = l[i] := by
                  rw [List.getElem?_eq_getElem hil] at hb
                  exact (Option.some_inj.mp (Option.mem_def.mp hb)).symm
                subst hb3
                have hmem : (l[(i - 1) / 2] : α) ∈ l[(c - 1) / 2]? := by
                  rw [hcs, List.getElem?_eq_getElem hpl]
                  rfl
                have h1 : cmp (l[(i - 1) / 2]) a ≤ 0 := H c hc hci a ha _ hmem
                exact hp.le_trans _ _ _ (hp.le_of_lt hlt) h1
              · -- an edge untouched by the swap
                rw [if_neg hcs, if_neg hcpp] at hb
                by_cases hcq : c = (i - 1) / 2
                · omega
                · rw [if_neg hcq] at ha
                  exact H c hc hci a ha b hb
        · -- the grandparent precedes both children of the parent position
          intro c hch h0p a ha b hb
          rw [lswap_getElem? l hil hpl c] at ha
          rw [lswap_getElem? l hil hpl (((i - 1) / 2 - 1) / 2)] at hb
          rw [if_neg (by omega : ¬((i - 1) / 2 - 1) / 2 = (i - 1) / 2),
            if_neg (by omega : ¬((i - 1) / 2 - 1) / 2 = i)] at hb
          by_cases hci : c = i
          · -- the moved-up element under the grandparent
            rw [if_neg (by omega : ¬c = (i - 1) / 2), if_pos hci] at ha
            have := H ((i - 1) / 2) h0p (by omega) a ha b hb
            exact this
          · -- the sibling of i under the grandparent
            rw [if_neg (by omega : ¬c = (i - 1) / 2), if_neg hci] at ha
            have h1 : cmp b (l[(i - 1) / 2]) ≤ 0 :=
              H ((i - 1) / 2) h0p (by omega) (l[(i - 1) / 2])
                (List.getElem?_eq_getElem hpl) b hb
            have hmem : (l[(i - 1) / 2] : α) ∈ l[(c - 1) / 2]? := by
              rw [(by omega : (c - 1) / 2 = (i - 1) / 2),
                List.getElem?_eq_getElem hpl]
              rfl
            have h2 : cmp (l[(i - 1) / 2]) a ≤ 0 :=
              H c (by omega) hci a ha _ hmem
            exact hp.le_trans _ _ _ h1 h2
      · -- the comparator keeps the element below its parent: already a heap
        rw [if_neg hsw]
        intro c hc _ a ha b hb
        by_cases hci : c = i
        · subst hci
          have hO : oCmpLt cmp l c ((c - 1) / 2) = false :=
            Bool.not_eq_true _ |>.mp hsw
          exact hp.le_of_not_lt
            (oCmpLt_false (Option.mem_def.mp ha) (Option.mem_def.mp hb) hO)
        · exact H c hc hci a ha b hb
    · -- at the root: every other edge already holds
      rw [if_neg h0]
      intro c hc _ a ha b hb
      exact H c hc (by omega) a ha b hb

/-- Wrapper of `heapify_up_go_isHeap` at the budget used by
`binary_heap_heapify_up`. -/
theorem heapify_up_isHeap {cmp : α → α → Int} (hp : IsPreorderCmp cmp)
    (i : Nat) (l : List α)
    (H : ∀ c, 0 < c → c ≠ i → ∀ a ∈ l[c]?, ∀ b ∈ l[(c - 1) / 2]?, cmp b a ≤ 0)
    (Haux : ∀ c, (c = 2 * i + 1 ∨ c = 2 * i + 2) → 0 < i →
      ∀ a ∈ l[c]?, ∀ b ∈ l[(i - 1) / 2]?, cmp b a ≤ 0) :
    IsHeap cmp (binary_heap_heapify_up cmp l i) :=
  heapify_up_go_isHeap hp i l i (by omega) H Haux

/-! #### Heap operations preserve the invariant -/

theorem IsPreorderCmp.le_refl {cmp : α → α → Int} (hp : IsPreorderCmp cmp)
    (a : α) : cmp a a ≤ 0 := by
  by_cases h : cmp a a ≤ 0
  · exact h
  · exact (hp.flip a a).mp (by omega)

theorem push_isHeap {cmp : α → α → Int} (hp : IsPreorderCmp cmp)
    {l : List α} (hl : IsHeap cmp l) (e : α) :
    IsHeap cmp (binary_heap_push cmp l e) := by
  unfold binary_heap_push
  apply heapify_up_isHeap hp
  · intro c hc hci a ha b hb
    have hcl := mem_getElem?_lt ha
    rw [List.length_append] at hcl
    have hcl2 : c < l.length := by simp at hcl; omega
    rw [List.getElem?_append_left hcl2] at ha
    rw [List.getElem?_append_left (by omega)] at hb
    exact hl c hc (by omega) a ha b hb
  · intro c hch _ a ha _ _
    have := mem_getElem?_lt ha
    rw [List.length_append] at this
    simp at this
    omega

theorem push_perm (cmp : α → α → Int) (l : List α) (e : α) :
    binary_heap_push cmp l e ~ l ++ [e] :=
  heapify_up_perm cmp (l ++ [e]) l.length

/-- In a heap the root precedes every element. -/
theorem isHeap_le_root {cmp : α → α → Int} (hp : IsPreorderCmp cmp)
    {l : List α} (hl : IsHeap cmp l) :
    ∀ c : Nat, ∀ a ∈ l[c]?, ∀ r ∈ l[0]?, cmp r a ≤ 0 := by
  intro c
  induction c using Nat.strong_induction_on with
  | _ c ih =>
    intro a ha r hr
    rcases Nat.eq_zero_or_pos c with rfl | hc
    · rw [Option.mem_def, Option.mem_def.mp ha] at hr
      have hra : a = r := Option.some_inj.mp hr
      subst hra
      exact hp.le_refl a
    · have hcl := mem_getElem?_lt ha
      have hpar : (c - 1) / 2 < l.length := by omega
      have hedge := hl c hc (by omega) a ha (l[(c - 1) / 2])
        (List.getElem?_eq_getElem hpar)
      have hup := ih ((c - 1) / 2) (by omega) (l[(c - 1) / 2])
        (List.getElem?_eq_getElem hpar) r hr
      exact hp.le_trans _ _ _ hup hedge

theorem pop_fst (cmp : α → α → Int) (l : List α) :
    (binary_heap_pop cmp l).1 = l[0]? := by
  match l with
  | [] => rfl
  | [root] => rfl
  | root :: next :: rest => rfl

theorem pop_snd_perm (cmp : α → α → Int) (l : List α) :
    (binary_heap_pop cmp l).2 ~ l.tail := by
  match l with
  | [] => exact List.Perm.refl _
  | [root] => exact List.Perm.refl _
  | root :: next :: rest =>
    show binary_heap_heapify_down cmp
      ((root :: next :: rest).dropLast.set 0
        ((root :: next :: rest).getLast (by simp))) 0 ~ next :: rest
    have hm : (root :: next :: rest).dropLast.set 0
        ((root :: next :: rest).getLast (by simp))
        = (root :: next :: rest).getLast (by simp) :: (next :: rest).dropLast := by
      show ((root :: (next :: rest).dropLast).set 0 _) = _
      rfl
    refine (heapify_down_perm cmp _ 0).trans ?_
    rw [hm]
    have hsplit : (next :: rest).dropLast ++
        [(next :: rest).getLast (by simp)] = next :: rest :=
      List.dropLast_append_getLast (by simp)
    have hlast : (root :: next :: rest).getLast (by simp)
        = (next :: rest).getLast (by simp) := by
      rw [List.getLast_cons]
    rw [hlast]
    calc (next :: rest).getLast (by simp) :: (next :: rest).dropLast
        ~ (next :: rest).dropLast ++ [(next :: rest).getLast (by simp)] :=
          (@List.perm_append_comm _ [(next :: rest).getLast (by simp)]
            ((next :: rest).dropLast))
      _ = next :: rest := hsplit

theorem pop_isHeap {cmp : α → α → Int} (hp : IsPreorderCmp cmp)
    {l : List α} (hl : IsHeap cmp l) : IsHeap cmp (binary_heap_pop cmp l).2 := by
  match l with
  | [] =>
    intro c hc _ a ha b hb
    have := mem_getElem?_lt ha
    simp [binary_heap_pop] at this
  | [root] =>
    intro c hc _ a ha b hb
    have := mem_getElem?_lt ha
    simp [binary_heap_pop] at this
  | root :: next :: rest =>
    show IsHeap cmp (binary_heap_heapify_down cmp
      ((root :: next :: rest).dropLast.set 0
        ((root :: next :: rest).getLast (by simp))) 0)
    apply heapify_down_edges hp _ 0 0 (by omega)
    · -- every edge not out of the root holds in the shrunk array
      intro c hc _ hcp a ha b hb
      have hcl := mem_getElem?_lt ha
      have hbl := mem_getElem?_lt hb
      rw [List.length_set] at hcl hbl
      rw [List.getElem?_set_ne (by omega : (0 : Nat) ≠ c)] at ha
      rw [List.getElem?_set_ne (by omega : (0 : Nat) ≠ (c - 1) / 2)] at hb
      rw [List.getElem?_dropLast] at ha hb
      rw [if_pos (by simp at hcl ⊢; omega)] at ha
      rw [if_pos (by simp at hbl ⊢; omega)] at hb
      exact hl c hc (by omega) a ha b hb
    · intro c _ h0 _
      omega

theorem replace_snd_isHeap {cmp : α → α → Int} (hp : IsPreorderCmp cmp)
    {l : List α} (hl : IsHeap cmp l) (e : α) :
    IsHeap cmp (binary_heap_replace cmp l e).2 := by
  match l with
  | [] =>
    show IsHeap cmp (binary_heap_push cmp [] e)
    apply push_isHeap hp _ e
    intro c hc _ a ha b hb
    have := mem_getElem?_lt ha
    simp at this
  | root :: rest =>
    show IsHeap cmp (binary_heap_heapify_down cmp ((root :: rest).set 0 e) 0)
    apply heapify_down_edges hp _ 0 0 (by omega)
    · intro c hc _ hcp a ha b hb
      rw [List.getElem?_set_ne (by omega : (0 : Nat) ≠ c)] at ha
      rw [List.getElem?_set_ne (by omega : (0 : Nat) ≠ (c - 1) / 2)] at hb
      exact hl c hc (by omega) a ha b hb
    · intro c _ h0 _
      omega

/-! #### Bottom-up heap construction -/

theorem buildLoop_edges {cmp : α → α → Int} (hp : IsPreorderCmp cmp) :
    ∀ (k : Nat) (l : List α), EdgesOKFrom cmp l k →
      IsHeap cmp (buildLoop cmp l k) := by
  intro k
  induction k with
  | zero => intro l h; exact h
  | succ k ih =>
    intro l h
    show IsHeap cmp (buildLoop cmp (binary_heap_heapify_down cmp l k) k)
    apply ih
    apply heapify_down_edges hp l k k (by omega)
    · intro c hc hkc hck a ha b hb
      exact h c hc (by omega) a ha b hb
    · intro c _ h0 hk2
      omega

theorem buildLoop_perm (cmp : α → α → Int) :
    ∀ (k : Nat) (l : List α), buildLoop cmp l k ~ l := by
  intro k
  induction k with
  | zero => intro l; exact List.Perm.refl _
  | succ k ih =>
    intro l
    exact (ih _).trans (heapify_down_perm cmp l k)

theorem build_isHeap {cmp : α → α → Int} (hp : IsPreorderCmp cmp)
    (es : List α) : IsHeap cmp (binary_heap_build_from_array cmp es) := by
  unfold binary_heap_build_from_array
  by_cases h1 : 1 < es.length
  · rw [if_pos h1]
    apply buildLoop_edges hp
    intro c hc hkc a ha b hb
    have := mem_getElem?_lt ha
    omega
  · rw [if_neg h1]
    intro c hc _ a ha b hb
    have := mem_getElem?_lt ha
    omega

theorem build_perm (cmp : α → α → Int) (es : List α) :
    binary_heap_build_from_array cmp es ~ es := by
  unfold binary_heap_build_from_array
  split
  · exact buildLoop_perm cmp _ es
  · exact List.Perm.refl _

theorem pushAll_isHeap {cmp : α → α → Int} (hp : IsPreorderCmp cmp) :
    ∀ (es l : List α), IsHeap cmp l → IsHeap cmp (pushAll cmp l es) := by
  intro es
  induction es with
  | nil => intro l hl; exact hl
  | cons e es ih =>
    intro l hl
    exact ih _ (push_isHeap hp hl e)

theorem pushAll_perm (cmp : α → α → Int) :
    ∀ (es l : List α), pushAll cmp l es ~ l ++ es := by
  intro es
  induction es with
  | nil => intro l; simp [pushAll]
  | cons e es ih =>
    intro l
    show pushAll cmp (binary_heap_push cmp l e) es ~ l ++ e :: es
    refine (ih _).trans ?_
    calc binary_heap_push cmp l e ++ es ~ (l ++ [e]) ++ es :=
          (push_perm cmp l e).append_right es
      _ ~ l ++ e :: es := by simp

/-! #### Draining -/

theorem drainAux_nil (cmp : α → α → Int) (fuel : Nat) :
    drainAux cmp fuel ([] : List α) = [] := by
  cases fuel <;> rfl

theorem drainAux_perm (cmp : α → α → Int) :
    ∀ (fuel : Nat) (l : List α), l.length ≤ fuel → drainAux cmp fuel l ~ l := by
  intro fuel
  induction fuel with
  | zero =>
    intro l hl
    have : l = [] := List.length_eq_zero.mp (by omega)
    subst this
    exact List.Perm.refl _
  | succ fuel ih =>
    intro l hl
    match l with
    | [] => rw [drainAux_nil]
    | root :: rest =>
      rcases hpop : binary_heap_pop cmp (root :: rest) with ⟨fst, snd⟩
      have h1 := pop_fst cmp (root :: rest)
      rw [hpop] at h1
      simp at h1
      subst h1
      have h2 := pop_snd_perm cmp (root :: rest)
      rw [hpop] at h2
      show (match binary_heap_pop cmp (root :: rest) with
        | (none, _) => []
        | (some r, l2) => r :: drainAux cmp fuel l2) ~ root :: rest
      rw [hpop]
      show root :: drainAux cmp fuel snd ~ root :: rest
      have hlen : snd.length ≤ fuel := by
        have := h2.length_eq
        simp at hl this
        omega
      exact List.Perm.cons root ((ih snd hlen).trans h2)

/-- Draining a heap only permutes its elements. -/
theorem drain_perm (cmp : α → α → Int) (l : List α) : drain cmp l ~ l :=
  drainAux_perm cmp l.length l (by omega)

theorem drainAux_sorted {cmp : α → α → Int} (hp : IsPreorderCmp cmp) :
    ∀ (fuel : Nat) (l : List α), l.length ≤ fuel → IsHeap cmp l →
      (drainAux cmp fuel l).Sorted (fun a b => cmp a b ≤ 0) := by
  intro fuel
  induction fuel with
  | zero => intro l _ _; exact List.sorted_nil
  | succ fuel ih =>
    intro l hl hheap
    match l with
    | [] => rw [drainAux_nil]; exact List.sorted_nil
    | root :: rest =>
      rcases hpop : binary_heap_pop cmp (root :: rest) with ⟨fst, snd⟩
      have h1 := pop_fst cmp (root :: rest)
      rw [hpop] at h1
      simp at h1
      subst h1
      have h2 := pop_snd_perm cmp (root :: rest)
      rw [hpop] at h2
      have hheap2 : IsHeap cmp snd := by
        have := pop_isHeap hp hheap
        rw [hpop] at this
        exact this
      show List.Sorted _ (match binary_heap_pop cmp (root :: rest) with
        | (none, _) => []
        | (some r, l2) => r :: drainAux cmp fuel l2)
      rw [hpop]
      show List.Sorted _ (root :: drainAux cmp fuel snd)
      have hlen : snd.length ≤ fuel := by
        have := h2.length_eq
        simp at hl this
        omega
      rw [List.sorted_cons]
      constructor
      · -- the popped root precedes everything still in the heap
        intro b hb
        have hb2 : b ∈ snd := ((drainAux_perm cmp fuel snd hlen).mem_iff).mp hb
        have hb3 : b ∈ root :: rest := by
          have := h2.mem_iff.mp hb2
          exact List.mem_cons_of_mem root this
        obtain ⟨c, hc⟩ := List.mem_iff_getElem?.mp hb3
        exact isHeap_le_root hp hheap c b hc root (by simp)
      · exact ih snd hlen hheap2

/-- Draining a valid heap yields a sequence sorted by the comparator. -/
theorem drain_sorted {cmp : α → α → Int} (hp : IsPreorderCmp cmp)
    {l : List α} (hl : IsHeap cmp l) :
    (drain cmp l).Sorted (fun a b => cmp a b ≤ 0) :=
  drainAux_sorted hp l.length l (by omega) hl

/-! #### Validation -/

theorem oCmpLe_of_edge {cmp : α → α → Int} {l : List α} {i j : Nat}
    (h : ∀ a ∈ l[j]?, ∀ b ∈ l[i]?, cmp b a ≤ 0) : oCmpLe cmp l i j = true := by
  unfold oCmpLe
  cases hi : l[i]? with
  | none => rfl
  | some b =>
    cases hj : l[j]? with
    | none => rfl
    | some a => simpa using h a (by rw [hj]; rfl) b (by rw [hi]; rfl)

/-- `binary_heap_is_valid` decides exactly the heap-order invariant. -/
theorem is_valid_iff_isHeap (cmp : α → α → Int) (l : List α) :
    binary_heap_is_valid cmp l = true ↔ IsHeap cmp l := by
  unfold binary_heap_is_valid
  rw [List.all_eq_true]
  constructor
  · intro h c hc _ a ha b hb
    have hcl := mem_getElem?_lt ha
    have hpar : (c - 1) / 2 < l.length / 2 := by omega
    have := h ((c - 1) / 2) (List.mem_range.mpr hpar)
    rw [Bool.and_eq_true] at this
    have hch : c = 2 * ((c - 1) / 2) + 1 ∨ c = 2 * ((c - 1) / 2) + 2 := by omega
    rcases hch with hch | hch
    · have hle := this.1
      unfold oCmpLe at hle
      rw [← hch, Option.mem_def.mp ha, Option.mem_def.mp hb] at hle
      simpa using hle
    · have hle := this.2
      unfold oCmpLe at hle
      rw [← hch, Option.mem_def.mp ha, Option.mem_def.mp hb] at hle
      simpa using hle
  · intro h i hi
    rw [List.mem_range] at hi
    rw [Bool.and_eq_true]
    constructor
    · exact oCmpLe_of_edge (fun a ha b hb => h (2 * i + 1) (by omega)
        (by omega) a ha b
        (by rw [(by omega : (2 * i + 1 - 1) / 2 = i)]; exact hb))
    · exact oCmpLe_of_edge (fun a ha b hb => h (2 * i + 2) (by omega)
        (by omega) a ha b
        (by rw [(by omega : (2 * i + 2 - 1) / 2 = i)]; exact hb))

/-! #### Comparator congruence

The heap code consults the comparator only on pairs of stored elements, so
two comparators agreeing on the elements of the array drive every operation
identically.  This transfers results about a well-behaved comparator to the
wrapping C `int` comparators on inputs where no overflow occurs. -/

theorem oCmpLt_congr {cmp cmp2 : α → α → Int} {l : List α}
    (H : ∀ a ∈ l, ∀ b ∈ l, cmp a b = cmp2 a b) (i j : Nat) :
    oCmpLt cmp l i j = oCmpLt cmp2 l i j := by
  unfold oCmpLt
  cases hi : l[i]? with
  | none => rfl
  | some a =>
    cases hj : l[j]? with
    | none => rfl
    | some b =>
      show decide (cmp a b < 0) = decide (cmp2 a b < 0)
      rw [H a (List.getElem?_mem hi) b (List.getElem?_mem hj)]

theorem downTarget_congr {cmp cmp2 : α → α → Int} {l : List α}
    (H : ∀ a ∈ l, ∀ b ∈ l, cmp a b = cmp2 a b) (i : Nat) :
    downTarget cmp l i = downTarget cmp2 l i := by
  unfold downTarget downTargetL
  rw [oCmpLt_congr H (2 * i + 1) i]
  rw [oCmpLt_congr H (2 * i + 2)
    (if 2 * i + 1 < l.length ∧ oCmpLt cmp2 l (2 * i + 1) i = true
     then 2 * i + 1 else i)]

theorem mem_of_mem_lswap {l : List α} {i j : Nat} {a : α}
    (h : a ∈ lswap l i j) : a ∈ l := (lswap_perm l i j).mem_iff.mp h

theorem heapify_down_go_congr {cmp cmp2 : α → α → Int} :
    ∀ (fuel : Nat) (l : List α) (i : Nat),
      (∀ a ∈ l, ∀ b ∈ l, cmp a b = cmp2 a b) →
      heapify_down_go cmp fuel l i = heapify_down_go cmp2 fuel l i := by
  intro fuel
  induction fuel with
  | zero => intro l i H; rfl
  | succ fuel ih =>
    intro l i H
    show (if downTarget cmp l i = i then l
      else heapify_down_go cmp fuel (lswap l i (downTarget cmp l i))
        (downTarget cmp l i))
      = (if downTarget cmp2 l i = i then l
      else heapify_down_go cmp2 fuel (lswap l i (downTarget cmp2 l i))
        (downTarget cmp2 l i))
    rw [downTarget_congr H]
    by_cases hdt : downTarget cmp2 l i = i
    · rw [if_pos hdt, if_pos hdt]
    · rw [if_neg hdt, if_neg hdt]
      exact ih _ _ (fun a ha b hb =>
        H a (mem_of_mem_lswap ha) b (mem_of_mem_lswap hb))

theorem heapify_down_congr {cmp cmp2 : α → α → Int} {l : List α} (i : Nat)
    (H : ∀ a ∈ l, ∀ b ∈ l, cmp a b = cmp2 a b) :
    binary_heap_heapify_down cmp l i = binary_heap_heapify_down cmp2 l i :=
  heapify_down_go_congr l.length l i H

theorem pop_congr {cmp cmp2 : α → α → Int} {l : List α}
    (H : ∀ a ∈ l, ∀ b ∈ l, cmp a b = cmp2 a b) :
    binary_heap_pop cmp l = binary_heap_pop cmp2 l := by
  match l with
  | [] => rfl
  | [root] => rfl
  | root :: next :: rest =>
    show (some root, binary_heap_heapify_down cmp _ 0)
      = (some root, binary_heap_heapify_down cmp2 _ 0)
    rw [heapify_down_congr 0 (fun a ha b hb =>
      H a ?_ b ?_)]
    · rcases List.mem_or_eq_of_mem_set ha with h | h
      · exact (List.dropLast_sublist _).subset h
      · rw [h]; exact List.getLast_mem _
    · rcases List.mem_or_eq_of_mem_set hb with h | h
      · exact (List.dropLast_sublist _).subset h
      · rw [h]; exact List.getLast_mem _

theorem mem_of_mem_pop_snd {cmp : α → α → Int} {l : List α} {a : α}
    (h : a ∈ (binary_heap_pop cmp l).2) : a ∈ l := by
  have := (pop_snd_perm cmp l).mem_iff.mp h
  exact (List.tail_sublist l).subset this

theorem drainAux_congr {cmp cmp2 : α → α → Int} :
    ∀ (fuel : Nat) (l : List α),
      (∀ a ∈ l, ∀ b ∈ l, cmp a b = cmp2 a b) →
      drainAux cmp fuel l = drainAux cmp2 fuel l := by
  intro fuel
  induction fuel with
  | zero => intro l H; rfl
  | succ fuel ih =>
    intro l H
    show (match binary_heap_pop cmp l with
      | (none, _) => []
      | (some r, l2) => r :: drainAux cmp fuel l2)
      = (match binary_heap_pop cmp2 l with
      | (none, _) => []
      | (some r, l2) => r :: drainAux cmp2 fuel l2)
    rw [pop_congr H]
    rcases hpop : binary_heap_pop cmp2 l with ⟨fst, snd⟩
    cases fst with
    | none => rfl
    | some r =>
      show r :: drainAux cmp fuel snd = r :: drainAux cmp2 fuel snd
      rw [ih snd (fun a ha b hb => H a ?_ b ?_)]
      · exact mem_of_mem_pop_snd
          (show _ ∈ (binary_heap_pop cmp2 l).2 by rw [hpop]; exact ha)
      · exact mem_of_mem_pop_snd
          (show _ ∈ (binary_heap_pop cmp2 l).2 by rw [hpop]; exact hb)

theorem drain_congr {cmp cmp2 : α → α → Int} {l : List α}
    (H : ∀ a ∈ l, ∀ b ∈ l, cmp a b = cmp2 a b) :
    drain cmp l = drain cmp2 l :=
  drainAux_congr l.length l H

theorem isHeap_congr {cmp cmp2 : α → α → Int} {l : List α}
    (H : ∀ a ∈ l, ∀ b ∈ l, cmp a b = cmp2 a b) :
    IsHeap cmp l ↔ IsHeap cmp2 l := by
  constructor <;> intro h c hc hk a ha b hb
  · rw [← H b (List.getElem?_mem (Option.mem_def.mp hb))
      a (List.getElem?_mem (Option.mem_def.mp ha))]
    exact h c hc hk a ha b hb
  · rw [H b (List.getElem?_mem (Option.mem_def.mp hb))
      a (List.getElem?_mem (Option.mem_def.mp ha))]
    exact h c hc hk a ha b hb

/-! #### Concrete exact comparators -/

/-- An overflow-free integer comparator: the same three-way convention as
`heap_int_compare_min`, but in unbounded arithmetic.  On operands whose
difference fits in a C `int` it coincides with `heap_int_compare_min`. -/
def int_compare_exact (a b : Int) : Int := a - b

theorem int_compare_exact_preorder : IsPreorderCmp int_compare_exact := by
  constructor
  · intro a b
    unfold int_compare_exact
    omega
  · intro a b c
    unfold int_compare_exact
    omega

/-- The reversed overflow-free comparator (max-heap convention). -/
def int_compare_exact_rev (a b : Int) : Int := b - a

theorem int_compare_exact_rev_preorder : IsPreorderCmp int_compare_exact_rev := by
  constructor
  · intro a b
    unfold int_compare_exact_rev
    omega
  · intro a b c
    unfold int_compare_exact_rev
    omega

theorem wrap32_eq_self {z : Int} (h1 : -(2 ^ 31) ≤ z) (h2 : z < 2 ^ 31) :
    wrap32 z = z := by
  unfold wrap32
  omega

/-- A C pointer to an `int`, modelled as the pointed-to value paired with a
pointer identity; `heap_int_compare_min` dereferences and compares only the
value, so distinct pointers to equal ints compare as ties. -/
def ptr_int_compare_min (a b : Int × Nat) : Int := a.1 - b.1

theorem ptr_int_compare_min_preorder : IsPreorderCmp ptr_int_compare_min := by
  constructor
  · intro a b
    unfold ptr_int_compare_min
    omega
  · intro a b c
    unfold ptr_int_compare_min
    omega

/-! #### Invariant after operation sequences -/

theorem isHeap_nil (cmp : α → α → Int) : IsHeap cmp ([] : List α) := by
  intro c hc _ a ha b hb
  have := mem_getElem?_lt ha
  simp at this

theorem runHeapOps_isHeap {cmp : α → α → Int} (hp : IsPreorderCmp cmp) :
    ∀ (ops : List (HeapOp α)) (l : List α), IsHeap cmp l →
      IsHeap cmp (runHeapOps cmp l ops) := by
  intro ops
  induction ops with
  | nil => intro l hl; exact hl
  | cons op rest ih =>
    intro l hl
    cases op with
    | push e => exact ih _ (push_isHeap hp hl e)
    | pop => exact ih _ (pop_isHeap hp hl)
    | replace e => exact ih _ (replace_snd_isHeap hp hl e)

/-! ### Heap claims -/

/-- C7 (counterexample): `heap_int_compare_min` computes `ia - ib` in C
`int` arithmetic, which wraps on overflow.  Pushing `INT_MAX` then `INT_MIN`
leaves the heap `[INT_MAX, INT_MIN]` — a valid heap for the comparator,
because `INT_MAX - INT_MIN` wraps to a positive value — and draining it
yields `INT_MAX, INT_MIN`, which is not non-decreasing in the natural
order. -/
theorem min_heap_drain_overflow_counterexample :
    pushAll heap_int_compare_min [] [(2147483647 : Int), -2147483648]
      = [2147483647, -2147483648] ∧
    binary_heap_is_valid heap_int_compare_min
      [(2147483647 : Int), -2147483648] = true ∧
    drain heap_int_compare_min [(2147483647 : Int), -2147483648]
      = [2147483647, -2147483648] ∧
    ¬ (drain heap_int_compare_min
        [(2147483647 : Int), -2147483648]).Sorted (fun a b : Int => a ≤ b) := by
  refine ⟨by decide, by decide, by decide, ?_⟩
  intro hs
  rw [(by decide : drain heap_int_compare_min
      [(2147483647 : Int), -2147483648] = [2147483647, -2147483648])] at hs
  rw [List.sorted_cons] at hs
  have := hs.1 (-2147483648) (by simp)
  omega

/-- C7 (amended): draining a min-heap (`heap_int_compare_min`) fully yields
a non-decreasing sequence, and a max-heap (`heap_int_compare_max`) a
non-increasing one, PROVIDED the element values are small enough that the
comparator's `int` subtraction cannot overflow (for instance all values
strictly between `-2^30` and `2^30`); the original claim over all C `int`
values fails on overflow. -/
theorem heap_drain_sorted_no_overflow (l : List Int)
    (hr : ∀ x ∈ l, -(2 ^ 30) < x ∧ x < 2 ^ 30) :
    (IsHeap heap_int_compare_min l →
      (drain heap_int_compare_min l).Sorted (fun a b : Int => a ≤ b)) ∧
    (IsHeap heap_int_compare_max l →
      (drain heap_int_compare_max l).Sorted (fun a b : Int => b ≤ a)) := by
  have Hmin : ∀ a ∈ l, ∀ b ∈ l,
      heap_int_compare_min a b = int_compare_exact a b := by
    intro a ha b hb
    obtain ⟨ha1, ha2⟩ := hr a ha
    obtain ⟨hb1, hb2⟩ := hr b hb
    unfold heap_int_compare_min int_compare_exact
    exact wrap32_eq_self (by omega) (by omega)
  have Hmax : ∀ a ∈ l, ∀ b ∈ l,
      heap_int_compare_max a b = int_compare_exact_rev a b := by
    intro a ha b hb
    obtain ⟨ha1, ha2⟩ := hr a ha
    obtain ⟨hb1, hb2⟩ := hr b hb
    unfold heap_int_compare_max int_compare_exact_rev
    exact wrap32_eq_self (by omega) (by omega)
  constructor
  · intro hheap
    rw [drain_congr Hmin]
    have h3 := drain_sorted int_compare_exact_preorder
      ((isHeap_congr Hmin).mp hheap)
    exact List.Pairwise.imp
      (fun h => by unfold int_compare_exact at h; omega) h3
  · intro hheap
    rw [drain_congr Hmax]
    have h3 := drain_sorted int_compare_exact_rev_preorder
      ((isHeap_congr Hmax).mp hheap)
    exact List.Pairwise.imp
      (fun h => by unfold int_compare_exact_rev at h; omega) h3

/-- C7 (witness): the amended theorem applied to the concrete min-heap
`[10, 20, 30]`. -/
theorem heap_drain_sorted_no_overflow_witness :
    (∀ x ∈ [(10 : Int), 20, 30], -(2 ^ 30) < x ∧ x < 2 ^ 30) ∧
    IsHeap heap_int_compare_min [(10 : Int), 20, 30] ∧
    (drain heap_int_compare_min [(10 : Int), 20, 30]).Sorted
      (fun a b : Int => a ≤ b) := by
  have h1 : ∀ x ∈ [(10 : Int), 20, 30], -(2 ^ 30) < x ∧ x < 2 ^ 30 := by decide
  have h2 : IsHeap heap_int_compare_min [(10 : Int), 20, 30] :=
    (is_valid_iff_isHeap _ _).mp (by decide)
  exact ⟨h1, h2, (heap_drain_sorted_no_overflow _ h1).1 h2⟩

/-- C8: after any interleaving of push / pop / replace starting from the
empty heap, with a comparator that is a total preorder, `isValid` returns
true: every operation preserves the heap-order invariant. -/
theorem heap_ops_preserve_validity {α : Type} (cmp : α → α → Int)
    (hp : IsPreorderCmp cmp) (ops : List (HeapOp α)) :
    binary_heap_is_valid cmp (runHeapOps cmp [] ops) = true :=
  (is_valid_iff_isHeap cmp _).mpr (runHeapOps_isHeap hp ops [] (isHeap_nil cmp))

/-- C8 (witness): a concrete interleaving under the exact integer
comparator. -/
theorem heap_ops_preserve_validity_witness :
    IsPreorderCmp int_compare_exact ∧
    binary_heap_is_valid int_compare_exact
      (runHeapOps int_compare_exact []
        [HeapOp.push 5, HeapOp.push 2, HeapOp.pop, HeapOp.replace 7,
         HeapOp.push 1, HeapOp.pop]) = true :=
  ⟨int_compare_exact_preorder,
    heap_ops_preserve_validity int_compare_exact int_compare_exact_preorder _⟩

/-- C9 (counterexample): with a comparator that ties distinct elements —
here five distinct "pointers" where two point to the value 1 and three to
the value 0 — `buildFromArray` + full drain and push-one-by-one + full drain
produce different output sequences. -/
theorem build_vs_push_drain_counterexample :
    drain ptr_int_compare_min (binary_heap_build_from_array ptr_int_compare_min
      [((1 : Int), 0), (1, 1), (0, 2), (0, 3), (0, 4)])
      = [((0 : Int), 3), (0, 4), (0, 2), (1, 1), (1, 0)] ∧
    drain ptr_int_compare_min (pushAll ptr_int_compare_min []
      [((1 : Int), 0), (1, 1), (0, 2), (0, 3), (0, 4)])
      = [((0 : Int), 2), (0, 4), (0, 3), (1, 0), (1, 1)] ∧
    drain ptr_int_compare_min (binary_heap_build_from_array ptr_int_compare_min
      [((1 : Int), 0), (1, 1), (0, 2), (0, 3), (0, 4)])
      ≠ drain ptr_int_compare_min (pushAll ptr_int_compare_min []
        [((1 : Int), 0), (1, 1), (0, 2), (0, 3), (0, 4)]) :=
  ⟨by decide, by decide, by decide⟩

/-- C9 (amended): when the comparator is a total preorder that never ties
distinct elements (a total order, as with distinct int values),
`buildFromArray` followed by a full drain produces the same output sequence
as pushing the elements one by one and draining; with ties the two loading
orders may emit tied elements in different orders. -/
theorem build_vs_push_drain_eq {α : Type} (cmp : α → α → Int)
    (hp : IsPreorderCmp cmp) (hanti : ∀ a b, cmp a b = 0 → a = b)
    (es : List α) :
    drain cmp (binary_heap_build_from_array cmp es)
      = drain cmp (pushAll cmp [] es) := by
  have h1 : drain cmp (binary_heap_build_from_array cmp es) ~ es :=
    (drain_perm cmp _).trans (build_perm cmp es)
  have h2 : drain cmp (pushAll cmp [] es) ~ es :=
    (drain_perm cmp _).trans ((pushAll_perm cmp es []).trans (by simp))
  have hs1 : (drain cmp (binary_heap_build_from_array cmp es)).Sorted
      (fun a b => cmp a b ≤ 0) :=
    drain_sorted hp (build_isHeap hp es)
  have hs2 : (drain cmp (pushAll cmp [] es)).Sorted
      (fun a b => cmp a b ≤ 0) :=
    drain_sorted hp (pushAll_isHeap hp es [] (isHeap_nil cmp))
  haveI : IsAntisymm α (fun a b => cmp a b ≤ 0) := by
    constructor
    intro a b hab hba
    exact hanti a b (by have := (hp.flip a b).mpr hba; omega)
  exact List.eq_of_perm_of_sorted (h1.trans h2.symm) hs1 hs2

/-- C9 (witness): the amended theorem at the exact integer comparator on
`[3, 1, 2]`. -/
theorem build_vs_push_drain_eq_witness :
    IsPreorderCmp int_compare_exact ∧
    (∀ a b : Int, int_compare_exact a b = 0 → a = b) ∧
    drain int_compare_exact
      (binary_heap_build_from_array int_compare_exact [3, 1, 2])
      = drain int_compare_exact (pushAll int_compare_exact [] [3, 1, 2]) := by
  have hanti : ∀ a b : Int, int_compare_exact a b = 0 → a = b := by
    intro a b h
    unfold int_compare_exact at h
    omega
  exact ⟨int_compare_exact_preorder, hanti,
    build_vs_push_drain_eq int_compare_exact int_compare_exact_preorder
      hanti [3, 1, 2]⟩

end Algo
